import Mathlib

/-!
# SudokuSolver: a shallow embedding of `Sudoku.h` / `Sudoku.cpp`

The grid `std::unordered_map<Cell, std::unordered_set<int>>` is embedded as an
association list whose order is the container's iteration order; a candidate
set is the list of its elements in iteration order.  Copying a container keeps
the order, `erase` keeps the order of the remaining elements, and
`std::out_of_range` (thrown by `at`) is an explicit error result.  The recursion
of `tryFrom` is bounded by a fuel argument; running out of fuel is a second,
distinct error result.  Coordinates and digits, `int` in the source, are natural
numbers: the program never makes a negative one.  The member `grid_` is passed
through `tryFrom` as state, and the move assignment `grid_ = std::move(grid)` is
the assignment of the value of `grid`.

The C++ standard leaves the iteration order of the unordered containers to the
library.  Where the program builds a container (`read`), the order is that of the
GNU C++ library (libstdc++ 12, `bits/hashtable.h`): the nodes form one list in
which the nodes of a bucket are adjacent, a new node is hooked in front of the
first node of its bucket or, when the bucket is empty, at the front of the list,
and a rehash hooks the nodes one by one, in their order, into the emptied list.
The theorems about `getNextCell`, `removeCandidate`, `tryFrom` and `solve` that are
stated for every grid hold for every order.
-/

namespace SudokuSolver


/-- The coordinate type `struct Cell { int row_; int col_; }` with its component-wise `operator==`. -/
structure Cell where
  row_ : Nat
  col_ : Nat
deriving DecidableEq, Repr

/-- A candidate set `std::unordered_set<int>`, listed in iteration order. -/
abbrev Candidates := List Nat

/-- The type alias `Grid`, listed in iteration order. -/
abbrev Grid := List (Cell × Candidates)

/-- The two ways a call can end without returning. -/
inductive Fault where
  | outOfRange
  | fuel
deriving DecidableEq, Repr

deriving instance DecidableEq for Except

/-- The lookup `grid.at(cell)`; `none` stands for the `std::out_of_range` it throws. -/
def Grid.at : Grid → Cell → Option Candidates
  | [], _ => none
  | (k, v) :: rest, cell => if k = cell then some v else Grid.at rest cell

/-- Replace the candidate set stored under `cell` (the first entry with that key) by `f` of it. -/
def Grid.modify : Grid → Cell → (Candidates → Candidates) → Grid
  | [], _, _ => []
  | (k, v) :: rest, cell, f =>
    if k = cell then (k, f v) :: rest else (k, v) :: Grid.modify rest cell f

/-- The call `set.erase(value)` on a candidate set. -/
def eraseValue (value : Nat) (cands : Candidates) : Candidates :=
  cands.filter (fun d => d != value)

/-! ### The container: where the library lists a new key -/

/-- The hash `std::hash<Cell>`: `2 * hash1 ^ hash2` is `(2 * hash1) ^ hash2`, and `std::hash<size_t>`
of the library returns its argument. -/
def hashCell (coordinate : Cell) : Nat :=
  (2 * coordinate.row_) ^^^ coordinate.col_

/-- The number of buckets of a map that has grown to `size` elements by insertions alone (the
library's `_Prime_rehash_policy`): one bucket while it is empty, 13 from the first insertion on,
and, each time the elements come to outnumber the buckets, the next prime in the library's list
after twice the count: 29, 59, 127.  The 81 cells of a grid never outnumber 127 buckets, and the
growth beyond them is not listed. -/
def bucketCount (size : Nat) : Nat :=
  if size = 0 then 1
  else if size ≤ 13 then 13
  else if size ≤ 29 then 29
  else if size ≤ 59 then 59
  else 127

/-- Hook `node` in front of the first node of its bucket, the bucket of a key being its hash modulo
`buckets`; `none` when the list has no node of that bucket. -/
def hookInBucket (buckets : Nat) (node : Cell × Candidates) : Grid → Option Grid
  | [] => none
  | e :: rest =>
    if hashCell e.1 % buckets = hashCell node.1 % buckets then some (node :: e :: rest)
    else (hookInBucket buckets node rest).map fun hooked => e :: hooked

/-- The library's `_M_insert_bucket_begin`: the new node goes to the beginning of its bucket, and to
the front of the list when its bucket is empty. -/
def Grid.insertBucketBegin (grid : Grid) (buckets : Nat) (node : Cell × Candidates) : Grid :=
  match hookInBucket buckets node grid with
  | some hooked => hooked
  | none => node :: grid

/-- The library's `_M_rehash_aux` for unique keys: the list is emptied and the nodes, taken in the
order they had, are hooked into it one by one. -/
def Grid.rehash (grid : Grid) (buckets : Nat) : Grid :=
  grid.foldl (fun acc node => Grid.insertBucketBegin acc buckets node) []

/-- The library's `_M_insert_unique_node`, by which `operator[]` adds a key that is absent: rehash
when the bucket count has to grow, then hook the node at the beginning of its bucket. -/
def Grid.insertUniqueNode (grid : Grid) (node : Cell × Candidates) : Grid :=
  if bucketCount (grid.length + 1) = bucketCount grid.length then
    grid.insertBucketBegin (bucketCount grid.length) node
  else
    (grid.rehash (bucketCount (grid.length + 1))).insertBucketBegin
      (bucketCount (grid.length + 1)) node

/-! ### The search -/

/-- The statements `nextGrid[cell].clear(); nextGrid[cell].insert(value);`:
`operator[]` creates the entry when the key is absent. -/
def Grid.assign (grid : Grid) (cell : Cell) (value : Nat) : Grid :=
  match grid.at cell with
  | some _ => grid.modify cell (fun _ => [value])
  | none => grid.insertUniqueNode (cell, [value])

/-- The cells visited by the first loop nest of `removeCandidate` (the 3x3 square), in order. -/
def boxVisits (coordinate : Cell) : List Cell :=
  let baseRow := coordinate.row_ / 3 * 3
  let baseCol := coordinate.col_ / 3 * 3
  ((List.range 3).flatMap fun row =>
    (List.range 3).flatMap fun col =>
      if ¬ (baseRow + row = coordinate.row_ ∧ baseCol + col = coordinate.col_) then
        [Cell.mk (baseRow + row) (baseCol + col)]
      else [])

/-- The cells visited by the second loop of `removeCandidate`, in order: for each `i`
first `Cell{i, col_}` (when `i != row_`), then `Cell{row_, i}` (when `i != col_`). -/
def lineVisits (coordinate : Cell) : List Cell :=
  (List.range 9).flatMap fun i =>
    (if i ≠ coordinate.row_ then [Cell.mk i coordinate.col_] else []) ++
    (if i ≠ coordinate.col_ then [Cell.mk coordinate.row_ i] else [])

/-- The body shared by all the visits of `removeCandidate`: `grid.at(cell).erase(value)`, then
`return false` when the set became empty; otherwise go on with the remaining visits. -/
def eraseVisits (value : Nat) : Grid → List Cell → Except Fault (Bool × Grid)
  | grid, [] => .ok (true, grid)
  | grid, cell :: rest =>
    match grid.at cell with
    | none => .error .outOfRange
    | some cands =>
      if (eraseValue value cands).isEmpty then .ok (false, grid.modify cell (eraseValue value))
      else eraseVisits value (grid.modify cell (eraseValue value)) rest

/-- The function `SudokuSolver::removeCandidate`: the returned pair is the `bool` result and the grid
as the call leaves it. -/
def removeCandidate (grid : Grid) (coordinate : Cell) (value : Nat) : Except Fault (Bool × Grid) :=
  eraseVisits value grid (boxVisits coordinate ++ lineVisits coordinate)

/-- The value `std::numeric_limits<size_t>::max()` of a 64-bit `size_t`. -/
def sizeMax : Nat := 18446744073709551615

/-- The locals `minCell`, `minSize`, `solved` of `getNextCell`. -/
structure Scan where
  minCell : Cell
  minSize : Nat
  solved : Bool
deriving DecidableEq, Repr

/-- The body of the loop of `getNextCell` for one entry of the grid. -/
def scanStep (st : Scan) (entry : Cell × Candidates) : Scan :=
  let st1 : Scan :=
    if entry.2.length > 1 ∧ entry.2.length < st.minSize then
      { st with minSize := entry.2.length, minCell := entry.1 }
    else st
  if entry.2.length ≠ 1 then { st1 with solved := false } else st1

/-- The function `SudokuSolver::getNextCell`; `none` is `std::nullopt`. -/
def getNextCell (grid : Grid) : Option Cell :=
  let st := grid.foldl scanStep { minCell := Cell.mk 0 0, minSize := sizeMax, solved := true }
  if st.solved then none else some st.minCell

/-- The range-for loop of `tryFrom` over the candidates of `cell`, with the recursive call `recur`.
The first grid is the member `grid_`, passed through as state. -/
def tryValues (recur : Grid → Grid → Except Fault (Bool × Grid)) (grid : Grid) (cell : Cell) :
    Grid → List Nat → Except Fault (Bool × Grid)
  | grid_, [] => .ok (false, grid_)
  | grid_, value :: rest =>
    match removeCandidate (grid.assign cell value) cell value with
    | .error e => .error e
    | .ok (false, _) => tryValues recur grid cell grid_ rest
    | .ok (true, nextGrid) =>
      match recur grid_ nextGrid with
      | .error e => .error e
      | .ok (true, result) => .ok (true, result)
      | .ok (false, grid_1) => tryValues recur grid cell grid_1 rest

/-- The function `SudokuSolver::tryFrom`, with the member `grid_` passed in and returned next to the
`bool` result.  The first argument bounds the depth of the recursion. -/
def tryFrom : Nat → Grid → Grid → Except Fault (Bool × Grid)
  | 0, _, _ => .error .fuel
  | fuel + 1, grid_, grid =>
    match getNextCell grid with
    | none => .ok (true, grid)
    | some cell =>
      match grid.at cell with
      | none => .error .outOfRange
      | some cands => tryValues (tryFrom fuel) grid cell grid_ cands

/-- The function `SudokuSolver::solve` (the timing aside): `tryFrom(grid_)`. -/
def solve (fuel : Nat) (grid_ : Grid) : Except Fault (Bool × Grid) :=
  tryFrom fuel grid_ grid_

/-! ### Construction -/

/-- The two ways `read` can end without a grid: the `std::runtime_error` thrown when the file could
not be opened, and the use of `value` after an extraction that failed and left it uninitialised. -/
inductive ReadFault where
  | couldNotOpen
  | uninitialised
deriving DecidableEq, Repr

/-- The statement `grid_[cell].insert(value)`: `operator[]` first creates an empty set when the key
is new.  (Under a key already present the digit joins the set, at the front of its list; `read`
meets no such key, its grid starting empty and every cell coming once.) -/
def Grid.insertValue (grid : Grid) (cell : Cell) (value : Nat) : Grid :=
  match grid.at cell with
  | some _ => grid.modify cell (fun cands => if value ∈ cands then cands else value :: cands)
  | none => grid.insertUniqueNode (cell, [value])

/-- The statement `grid_[cell] = digits`. -/
def Grid.setCandidates (grid : Grid) (cell : Cell) (cands : Candidates) : Grid :=
  match grid.at cell with
  | some _ => grid.modify cell (fun _ => cands)
  | none => grid.insertUniqueNode (cell, cands)

/-- The digits 1 to 9, the local `digits` of `read`, in its iteration order: built from
`{1, 2, 3, 4, 5, 6, 7, 8, 9}` by nine insertions, each digit into a bucket of its own and so at the
front of the list. -/
def digits : List Nat := [9, 8, 7, 6, 5, 4, 3, 2, 1]

/-- The 81 coordinates of `[0,9) x [0,9)`, row by row: the order of the two loops of `read`. -/
def allCells : List Cell :=
  (List.range 9).flatMap fun r => (List.range 9).map fun c => Cell.mk r c

/-- The body of the loops of `read`, for the cells still to come and the characters that
`file >> value` still has to deliver (white space is skipped by the extraction and is not listed).
The value `converted_value` is `value - 48`, an `int`. -/
def readCells : List Cell → List Char → Grid → Except ReadFault Grid
  | [], _, grid_ => .ok grid_
  | _ :: _, [], _ => .error .uninitialised
  | cell :: cells, value :: rest, grid_ =>
    if ((value.toNat : Int) - 48) ∈ digits.map Int.ofNat then
      readCells cells rest (grid_.insertValue cell ((value.toNat : Int) - 48).toNat)
    else
      readCells cells rest (grid_.setCandidates cell digits)

/-- The candidate set `read` stores for the character `value`. -/
def entryOf (value : Char) : Candidates :=
  if ((value.toNat : Int) - 48) ∈ digits.map Int.ofNat then [((value.toNat : Int) - 48).toNat]
  else digits

/-- The function `SudokuSolver::read` on a member `grid_` that is still empty, as in the
constructor; `none` is a file that could not be opened. -/
def read (file : Option (List Char)) : Except ReadFault Grid :=
  match file with
  | none => .error .couldNotOpen
  | some tokens => readCells allCells tokens []

/-! ### The same search, one pass per branch

On a complete grid the visits of `removeCandidate` amount to one pass over the entries; `tryFromPass`
is `tryFrom` with that pass in place of the visits (`tryFrom_eq_tryFromPass`), and is what the
concrete runs below evaluate. -/

/-- Whether `p` is another cell in the row, the column or the 3x3 square of `coordinate`. -/
def isPeer (coordinate p : Cell) : Bool :=
  !(Nat.beq p.row_ coordinate.row_ && Nat.beq p.col_ coordinate.col_) &&
  (Nat.beq p.row_ coordinate.row_ || Nat.beq p.col_ coordinate.col_ ||
    (Nat.beq (p.row_ / 3) (coordinate.row_ / 3) && Nat.beq (p.col_ / 3) (coordinate.col_ / 3)))

/-- Remove `value` from the entry when its key is a peer of `coordinate`. -/
def eliminate (coordinate : Cell) (value : Nat) (e : Cell × Candidates) : Cell × Candidates :=
  match isPeer coordinate e.1 with
  | true => (e.1, eraseValue value e.2)
  | false => e

/-- One branch of the search: collapse `cell` to `value` and remove `value` from every peer;
`none` when that leaves some peer empty. -/
def branch (grid : Grid) (cell : Cell) (value : Nat) : Option Grid :=
  match (grid.assign cell value).any
      (fun e => isPeer cell e.1 && (eraseValue value e.2).isEmpty) with
  | true => none
  | false => some ((grid.assign cell value).map (eliminate cell value))

/-- The loop `tryValues` with `branch` in place of `removeCandidate`. -/
def tryValuesPass (recur : Grid → Grid → Except Fault (Bool × Grid)) (grid : Grid) (cell : Cell) :
    Grid → List Nat → Except Fault (Bool × Grid)
  | grid_, [] => .ok (false, grid_)
  | grid_, value :: rest =>
    match branch grid cell value with
    | none => tryValuesPass recur grid cell grid_ rest
    | some nextGrid =>
      match recur grid_ nextGrid with
      | .error e => .error e
      | .ok (true, result) => .ok (true, result)
      | .ok (false, grid_1) => tryValuesPass recur grid cell grid_1 rest

/-- The function `tryFrom` with `tryValuesPass` in place of `tryValues`. -/
def tryFromPass : Nat → Grid → Grid → Except Fault (Bool × Grid)
  | 0, _, _ => .error .fuel
  | fuel + 1, grid_, grid =>
    match getNextCell grid with
    | none => .ok (true, grid)
    | some cell =>
      match grid.at cell with
      | none => .error .outOfRange
      | some cands => tryValuesPass (tryFromPass fuel) grid cell grid_ cands

/-! ### The vocabulary of the specification -/

/-- The cells of row `r`. -/
def rowCells (r : Nat) : List Cell := (List.range 9).map fun c => Cell.mk r c

/-- The cells of column `c`. -/
def colCells (c : Nat) : List Cell := (List.range 9).map fun r => Cell.mk r c

/-- The cells of the 3x3 box number `b`, the boxes counted row by row. -/
def boxCells (b : Nat) : List Cell :=
  (List.range 9).map fun k => Cell.mk (b / 3 * 3 + k / 3) (b % 3 * 3 + k % 3)

/-- The nine rows, the nine columns and the nine 3x3 boxes. -/
def units : List (List Cell) :=
  (List.range 9).map rowCells ++ (List.range 9).map colCells ++ (List.range 9).map boxCells

/-- The keys of the map, in iteration order. -/
def Grid.keys (grid : Grid) : List Cell := grid.map Prod.fst

/-- The sum of the sizes of all candidate sets. -/
def Grid.total (grid : Grid) : Nat := (grid.map fun e => e.2.length).sum

/-- A grid as the data model describes it: an entry for each of the 81 coordinates and for
nothing else, each key once, and every candidate set a duplicate-free list that `size_t` can
count. -/
structure Grid.Complete (grid : Grid) : Prop where
  keys_perm : grid.keys.Perm allCells
  sets : ∀ e ∈ grid, e.2.Nodup ∧ e.2.length < sizeMax

/-- The grid `fine` has the keys of `coarse`, in the same order, and each of its candidate sets is
a sublist of the set `coarse` has under that key. -/
def Refines (fine coarse : Grid) : Prop :=
  List.Forall₂ (fun e1 e2 => e1.1 = e2.1 ∧ e1.2.Sublist e2.2) fine coarse

/-- The call `tryFrom(next)` is one that `tryFrom(grid)` makes or would make on going through all
candidates: `next` is what `removeCandidate` leaves, returning `true`, of the copy of `grid` in
which the cell chosen by `getNextCell` is collapsed to one of its candidates. -/
def Recurses (grid next : Grid) : Prop :=
  ∃ cell cands value, getNextCell grid = some cell ∧ grid.at cell = some cands ∧ value ∈ cands ∧
    removeCandidate (grid.assign cell value) cell value = .ok (true, next)

/-- A grid the search can work on: complete, and no candidate set empty. -/
def Searchable (grid : Grid) : Prop := grid.Complete ∧ ∀ e ∈ grid, e.2 ≠ []

/-- The digit of a determined cell, and 0 for a cell that is absent or not determined. -/
def valueAt (grid : Grid) (cell : Cell) : Nat :=
  match grid.at cell with
  | some [d] => d
  | _ => 0

/-- Whether the cell is present with exactly one candidate. -/
def isDetermined (grid : Grid) (cell : Cell) : Bool :=
  match grid.at cell with
  | some [_] => true
  | _ => false

/-- A valid completed Sudoku: each of the 81 cells is determined, and every row, every column and
every 3x3 box contains each digit 1 to 9 exactly once. -/
def isValidSolution (grid : Grid) : Bool :=
  allCells.all (isDetermined grid) &&
  units.all fun u => digits.all fun d => (u.map (valueAt grid)).count d == 1

/-- The completion `s` agrees with `grid`: at every cell of `grid` its digit is one of the
candidates (at a given, the given digit). -/
def Agrees (s grid : Grid) : Prop :=
  ∀ e ∈ grid, valueAt s e.1 ∈ e.2

/-- The digits that no determined peer of `cell` holds; the peers are the cells `removeCandidate`
visits. -/
def freeDigits (grid : Grid) (cell : Cell) : List Nat :=
  digits.filter fun d => (boxVisits cell ++ lineVisits cell).all fun p => valueAt grid p != d

/-- Fix the digit of `cell` when the determined peers leave one digit only. -/
def nakedSingle (grid : Grid) (cell : Cell) : Grid :=
  match freeDigits grid cell with
  | [d] => grid.modify cell (fun _ => [d])
  | _ => grid

/-- Fix forced digits at the listed cells, one after the other. -/
def propagate (grid : Grid) (cells : List Cell) : Grid :=
  cells.foldl nakedSingle grid

/-- Agreement is decided cell by cell. -/
instance (s grid : Grid) : Decidable (Agrees s grid) :=
  inferInstanceAs (Decidable (∀ e ∈ grid, valueAt s e.1 ∈ e.2))

/-- The iteration order of the grid that `read` builds: the order in which the library lists the
81 keys after the insertions of `read` (`hashOrder_eq`), each cell written as the number
`10 * row + column`. -/
def hashOrder : List Cell :=
  [88, 87, 86, 85, 84, 83, 82, 81, 80, 72, 28, 44, 56, 60, 74, 66, 18, 42, 50, 24, 0, 12, 36,
   48, 25, 1, 13, 37, 26, 2, 10, 34, 58, 27, 3, 11, 35, 68, 20, 16, 4, 32, 21, 17, 5, 33,
   78, 30, 22, 14, 6, 31, 23, 15, 7, 76, 8, 40, 52, 64, 70, 38, 46, 54, 62, 77, 65, 41, 53,
   75, 67, 43, 51, 73, 45, 57, 61, 71, 47, 55, 63].map fun n => Cell.mk (n / 10) (n % 10)

/-- The grid of 81 tokens given row by row (0 for a blank), its entries listed in the order `cells`
and the candidates of each blank in the order `blank`. -/
def puzzleWith (cells : List Cell) (blank : Candidates) (tokens : List Nat) : Grid :=
  cells.map fun cell =>
    if tokens.getD (9 * cell.row_ + cell.col_) 0 = 0 then (cell, blank)
    else (cell, [tokens.getD (9 * cell.row_ + cell.col_) 0])

/-- The grid that `read` builds from 81 tokens (0 for a blank), in its iteration order
(`read_eq_puzzle`). -/
def puzzle (tokens : List Nat) : Grid := puzzleWith hashOrder digits tokens

/-- The same candidate sets under another iteration order: cells row by row, the candidates of a
blank ascending. -/
def puzzleRowMajor (tokens : List Nat) : Grid := puzzleWith allCells digits.reverse tokens

/-- The token of a character of the source: its digit, and 0 for a character that is no digit
1 to 9. -/
def tokenOf (value : Char) : Nat :=
  if ((value.toNat : Int) - 48) ∈ digits.map Int.ofNat then ((value.toNat : Int) - 48).toNat else 0

/-- The 81 digits of a grid, row by row (0 where a cell is not determined). -/
def values (grid : Grid) : List Nat := allCells.map (valueAt grid)

/-- Whether two grids hold the same candidate set at each of the 81 cells. -/
def sameCandidates (a b : Grid) : Bool :=
  allCells.all fun cell =>
    match a.at cell, b.at cell with
    | some x, some y => x.isPerm y
    | _, _ => false

/-! ### Concrete inputs -/

/-- A valid completed Sudoku. -/
def solvedTokens : List Nat :=
  [5, 3, 4, 6, 7, 8, 9, 1, 2,
   6, 7, 2, 1, 9, 5, 3, 4, 8,
   1, 9, 8, 3, 4, 2, 5, 6, 7,
   8, 5, 9, 7, 6, 1, 4, 2, 3,
   4, 2, 6, 8, 5, 3, 7, 9, 1,
   7, 1, 3, 9, 2, 4, 8, 5, 6,
   9, 6, 1, 5, 3, 7, 2, 8, 4,
   2, 8, 7, 4, 1, 9, 6, 3, 5,
   3, 4, 5, 2, 8, 6, 1, 7, 9]

/-- The grid `solvedTokens` with the first two cells of row 0 blank. -/
def twoBlanksTokens : List Nat :=
  [0, 0, 4, 6, 7, 8, 9, 1, 2,
   6, 7, 2, 1, 9, 5, 3, 4, 8,
   1, 9, 8, 3, 4, 2, 5, 6, 7,
   8, 5, 9, 7, 6, 1, 4, 2, 3,
   4, 2, 6, 8, 5, 3, 7, 9, 1,
   7, 1, 3, 9, 2, 4, 8, 5, 6,
   9, 6, 1, 5, 3, 7, 2, 8, 4,
   2, 8, 7, 4, 1, 9, 6, 3, 5,
   3, 4, 5, 2, 8, 6, 1, 7, 9]

/-- The grid `solvedTokens` with the given at row 0, column 1 changed from 3 to 5: row 0 now has
two givens 5. -/
def duplicateTokens : List Nat :=
  [5, 5, 4, 6, 7, 8, 9, 1, 2,
   6, 7, 2, 1, 9, 5, 3, 4, 8,
   1, 9, 8, 3, 4, 2, 5, 6, 7,
   8, 5, 9, 7, 6, 1, 4, 2, 3,
   4, 2, 6, 8, 5, 3, 7, 9, 1,
   7, 1, 3, 9, 2, 4, 8, 5, 6,
   9, 6, 1, 5, 3, 7, 2, 8, 4,
   2, 8, 7, 4, 1, 9, 6, 3, 5,
   3, 4, 5, 2, 8, 6, 1, 7, 9]

/-- The grid `duplicateTokens` with row 8 blank. -/
def duplicateBlankRowTokens : List Nat :=
  [5, 5, 4, 6, 7, 8, 9, 1, 2,
   6, 7, 2, 1, 9, 5, 3, 4, 8,
   1, 9, 8, 3, 4, 2, 5, 6, 7,
   8, 5, 9, 7, 6, 1, 4, 2, 3,
   4, 2, 6, 8, 5, 3, 7, 9, 1,
   7, 1, 3, 9, 2, 4, 8, 5, 6,
   9, 6, 1, 5, 3, 7, 2, 8, 4,
   2, 8, 7, 4, 1, 9, 6, 3, 5,
   0, 0, 0, 0, 0, 0, 0, 0, 0]

/-- A grid without completion: `solvedTokens` with the cell at row 0, column 0 blank and the given at
row 0, column 1 changed from 3 to 5, so that the givens of row 0 and of column 0 leave no digit for
the blank cell. -/
def deadEndTokens : List Nat :=
  [0, 5, 4, 6, 7, 8, 9, 1, 2,
   6, 7, 2, 1, 9, 5, 3, 4, 8,
   1, 9, 8, 3, 4, 2, 5, 6, 7,
   8, 5, 9, 7, 6, 1, 4, 2, 3,
   4, 2, 6, 8, 5, 3, 7, 9, 1,
   7, 1, 3, 9, 2, 4, 8, 5, 6,
   9, 6, 1, 5, 3, 7, 2, 8, 4,
   2, 8, 7, 4, 1, 9, 6, 3, 5,
   3, 4, 5, 2, 8, 6, 1, 7, 9]

/-- A puzzle with 61 givens and exactly one valid completion, `uniqueSolution`. -/
def uniqueTokens : List Nat :=
  [9, 8, 3, 6, 7, 4, 1, 5, 2,
   6, 4, 2, 9, 5, 1, 7, 3, 8,
   5, 7, 1, 3, 2, 8, 6, 4, 9,
   2, 6, 8, 5, 9, 3, 4, 7, 1,
   4, 3, 9, 7, 1, 2, 5, 8, 6,
   1, 5, 7, 8, 4, 6, 2, 9, 3,
   0, 0, 0, 0, 0, 0, 0, 0, 0,
   0, 0, 0, 4, 0, 0, 8, 0, 5,
   0, 0, 0, 1, 6, 5, 3, 0, 0]

/-- The valid completion of `uniqueTokens`. -/
def uniqueSolution : List Nat :=
  [9, 8, 3, 6, 7, 4, 1, 5, 2,
   6, 4, 2, 9, 5, 1, 7, 3, 8,
   5, 7, 1, 3, 2, 8, 6, 4, 9,
   2, 6, 8, 5, 9, 3, 4, 7, 1,
   4, 3, 9, 7, 1, 2, 5, 8, 6,
   1, 5, 7, 8, 4, 6, 2, 9, 3,
   3, 1, 5, 2, 8, 7, 9, 6, 4,
   7, 2, 6, 4, 3, 9, 8, 1, 5,
   8, 9, 4, 1, 6, 5, 3, 2, 7]

/-- The digits `solve` leaves for `uniqueTokens` when cells are scanned row by row and candidates
tried in ascending order: row 8 holds 5 twice, column 8 holds 5 twice. -/
def uniqueWrong : List Nat :=
  [9, 8, 3, 6, 7, 4, 1, 5, 2,
   6, 4, 2, 9, 5, 1, 7, 3, 8,
   5, 7, 1, 3, 2, 8, 6, 4, 9,
   2, 6, 8, 5, 9, 3, 4, 7, 1,
   4, 3, 9, 7, 1, 2, 5, 8, 6,
   1, 5, 7, 8, 4, 6, 2, 9, 3,
   3, 1, 4, 2, 8, 7, 9, 6, 5,
   7, 2, 6, 4, 3, 9, 8, 1, 5,
   8, 9, 5, 1, 6, 5, 3, 2, 4]

/-- An order in which the blank cells of `uniqueTokens` are forced one after the other. -/
def uniqueOrder : List Cell :=
  [⟨6, 3⟩, ⟨6, 6⟩, ⟨7, 2⟩, ⟨7, 4⟩, ⟨8, 2⟩, ⟨8, 7⟩, ⟨8, 8⟩, ⟨6, 1⟩, ⟨6, 2⟩, ⟨6, 4⟩, ⟨6, 5⟩,
   ⟨6, 7⟩, ⟨6, 8⟩, ⟨7, 0⟩, ⟨7, 5⟩, ⟨7, 7⟩, ⟨8, 0⟩, ⟨8, 1⟩, ⟨6, 0⟩, ⟨7, 1⟩]

/-- A puzzle with 63 givens and exactly one valid completion, `twoBoxesSolution`: a valid Sudoku
with the top and the bottom box of the middle stack blank. -/
def twoBoxesTokens : List Nat :=
  [6, 1, 5, 0, 0, 0, 3, 9, 2,
   9, 8, 2, 0, 0, 0, 7, 5, 4,
   4, 3, 7, 0, 0, 0, 1, 6, 8,
   7, 2, 4, 1, 8, 9, 6, 3, 5,
   5, 6, 1, 7, 3, 4, 8, 2, 9,
   3, 9, 8, 2, 5, 6, 4, 7, 1,
   2, 4, 6, 0, 0, 0, 9, 8, 3,
   8, 5, 9, 0, 0, 0, 2, 1, 7,
   1, 7, 3, 0, 0, 0, 5, 4, 6]

/-- The valid completion of `twoBoxesTokens`. -/
def twoBoxesSolution : List Nat :=
  [6, 1, 5, 4, 7, 8, 3, 9, 2,
   9, 8, 2, 3, 6, 1, 7, 5, 4,
   4, 3, 7, 9, 2, 5, 1, 6, 8,
   7, 2, 4, 1, 8, 9, 6, 3, 5,
   5, 6, 1, 7, 3, 4, 8, 2, 9,
   3, 9, 8, 2, 5, 6, 4, 7, 1,
   2, 4, 6, 5, 1, 7, 9, 8, 3,
   8, 5, 9, 6, 4, 3, 2, 1, 7,
   1, 7, 3, 8, 9, 2, 5, 4, 6]

/-- The digits `solve` leaves for `twoBoxesTokens`: column 3 holds 1 twice (rows 3 and 6). -/
def twoBoxesWrong : List Nat :=
  [6, 1, 5, 8, 4, 7, 3, 9, 2,
   9, 8, 2, 6, 3, 1, 7, 5, 4,
   4, 3, 7, 5, 9, 2, 1, 6, 8,
   7, 2, 4, 1, 8, 9, 6, 3, 5,
   5, 6, 1, 7, 3, 4, 8, 2, 9,
   3, 9, 8, 2, 5, 6, 4, 7, 1,
   2, 4, 6, 1, 7, 5, 9, 8, 3,
   8, 5, 9, 4, 6, 3, 2, 1, 7,
   1, 7, 3, 9, 2, 8, 5, 4, 6]

/-- An order in which the blank cells of `twoBoxesTokens` are forced one after the other. -/
def twoBoxesOrder : List Cell :=
  [⟨6, 3⟩, ⟨7, 5⟩, ⟨1, 5⟩, ⟨2, 3⟩, ⟨2, 4⟩, ⟨2, 5⟩, ⟨6, 5⟩, ⟨8, 3⟩, ⟨8, 4⟩, ⟨8, 5⟩, ⟨0, 3⟩,
   ⟨0, 4⟩, ⟨0, 5⟩, ⟨1, 4⟩, ⟨6, 4⟩, ⟨7, 3⟩, ⟨7, 4⟩, ⟨1, 3⟩]

/-- The source of the puzzle `twoBoxesTokens`. -/
def twoBoxesSource : List Char :=
  "615---392982---754437---168724189635561734829398256471246---983859---217173---546".toList

/-- The grid of `solvedTokens` with the candidate set at row 4, column 4 emptied. -/
def emptiedCellGrid : Grid := (puzzle solvedTokens).modify ⟨4, 4⟩ (fun _ => [])

/-- A source of 81 tokens that starts with the letter X. -/
def sourceWithX : List Char := 'X' :: List.replicate 80 '-'

/-- The source of the puzzle `twoBlanksTokens`. -/
def twoBlanksSource : List Char :=
  "--4678912672195348198342567859761423426853791713924856961537284287419635345286179".toList

/-- The empty puzzle: 81 blanks. -/
def emptyTokens : List Nat := List.replicate 81 0

/-- The digits `solve` leaves for the empty puzzle: row 6 holds 1 twice. -/
def emptyWrong : List Nat :=
  [4, 8, 7, 9, 6, 2, 1, 5, 3,
   5, 3, 9, 8, 1, 4, 2, 6, 7,
   2, 6, 1, 3, 7, 5, 4, 9, 8,
   6, 7, 2, 5, 4, 9, 8, 3, 1,
   3, 9, 4, 7, 2, 8, 6, 1, 5,
   8, 1, 5, 6, 3, 1, 9, 7, 4,
   9, 5, 6, 1, 8, 7, 3, 1, 2,
   7, 1, 8, 2, 9, 3, 5, 4, 6,
   1, 2, 3, 4, 5, 6, 7, 8, 9]

/-! ### Lookup and update -/

theorem Grid.at_mem {grid : Grid} {cell : Cell} {cands : Candidates}
    (h : grid.at cell = some cands) : (cell, cands) ∈ grid := by
  induction grid with
  | nil => simp [Grid.at] at h
  | cons e rest ih =>
    obtain ⟨k, v⟩ := e
    simp only [Grid.at] at h
    by_cases hk : k = cell
    · simp only [hk, if_true, Option.some.injEq] at h
      simp [hk, h]
    · simp only [hk, if_false] at h
      exact List.mem_cons_of_mem _ (ih h)

theorem Grid.at_of_mem {grid : Grid} {cell : Cell} {cands : Candidates}
    (hn : grid.keys.Nodup) (h : (cell, cands) ∈ grid) : grid.at cell = some cands := by
  induction grid with
  | nil => simp at h
  | cons e rest ih =>
    obtain ⟨k, v⟩ := e
    simp only [Grid.keys, List.map_cons, List.nodup_cons] at hn
    simp only [Grid.at]
    rcases List.mem_cons.1 h with h1 | h1
    · simp only [Prod.mk.injEq] at h1
      simp [h1.1, h1.2]
    · have hne : k ≠ cell := by
        intro hk
        apply hn.1
        rw [hk]
        exact List.mem_map.2 ⟨(cell, cands), h1, rfl⟩
      simp only [hne, if_false]
      exact ih hn.2 h1

theorem Grid.at_eq_none_iff {grid : Grid} {cell : Cell} :
    grid.at cell = none ↔ cell ∉ grid.keys := by
  induction grid with
  | nil => simp [Grid.at, Grid.keys]
  | cons e rest ih =>
    obtain ⟨k, v⟩ := e
    simp only [Grid.at, Grid.keys, List.map_cons, List.mem_cons, not_or]
    by_cases hk : k = cell
    · simp [hk]
    · simp only [hk, if_false]
      rw [ih]
      constructor
      · intro h
        exact ⟨fun h2 => hk h2.symm, h⟩
      · intro h
        exact h.2

theorem Grid.at_of_mem_keys {grid : Grid} {cell : Cell} (h : cell ∈ grid.keys) :
    ∃ cands, grid.at cell = some cands := by
  cases hc : grid.at cell with
  | none => exact absurd h (Grid.at_eq_none_iff.1 hc)
  | some cands => exact ⟨cands, rfl⟩

theorem Grid.keys_modify (grid : Grid) (cell : Cell) (f : Candidates → Candidates) :
    (grid.modify cell f).keys = grid.keys := by
  induction grid with
  | nil => simp [Grid.modify]
  | cons e rest ih =>
    obtain ⟨k, v⟩ := e
    simp only [Grid.modify]
    by_cases hk : k = cell
    · simp [hk, Grid.keys]
    · simp only [hk, if_false]
      simp only [Grid.keys, List.map_cons] at ih ⊢
      rw [ih]

theorem Grid.at_modify_self {grid : Grid} {cell : Cell} {cands : Candidates}
    (f : Candidates → Candidates) (h : grid.at cell = some cands) :
    (grid.modify cell f).at cell = some (f cands) := by
  induction grid with
  | nil => simp [Grid.at] at h
  | cons e rest ih =>
    obtain ⟨k, v⟩ := e
    simp only [Grid.at] at h
    simp only [Grid.modify]
    by_cases hk : k = cell
    · simp only [hk, if_true, Option.some.injEq] at h
      simp [hk, Grid.at, h]
    · simp only [hk, if_false] at h
      simp only [hk, if_false, Grid.at]
      exact ih h

theorem Grid.at_modify_of_ne {grid : Grid} {cell other : Cell}
    (f : Candidates → Candidates) (h : other ≠ cell) :
    (grid.modify cell f).at other = grid.at other := by
  induction grid with
  | nil => simp [Grid.modify]
  | cons e rest ih =>
    obtain ⟨k, v⟩ := e
    simp only [Grid.modify]
    by_cases hk : k = cell
    · have hko : k ≠ other := fun h2 => h (h2.symm.trans hk)
      simp [hk, Grid.at, hko, Ne.symm h]
    · simp only [hk, if_false, Grid.at]
      by_cases hko : k = other
      · simp [hko]
      · simp only [hko, if_false]
        exact ih

theorem Grid.total_modify {grid : Grid} {cell : Cell} {cands : Candidates}
    (f : Candidates → Candidates) (h : grid.at cell = some cands) :
    (grid.modify cell f).total + cands.length = grid.total + (f cands).length := by
  induction grid with
  | nil => simp [Grid.at] at h
  | cons e rest ih =>
    obtain ⟨k, v⟩ := e
    simp only [Grid.at] at h
    simp only [Grid.modify]
    by_cases hk : k = cell
    · simp only [hk, if_true, Option.some.injEq] at h
      simp only [hk, if_true, Grid.total, List.map_cons, List.sum_cons, h]
      omega
    · simp only [hk, if_false] at h
      have := ih h
      simp only [hk, if_false, Grid.total, List.map_cons, List.sum_cons] at this ⊢
      omega

theorem Grid.forall_modify {grid : Grid} {cell : Cell} {f : Candidates → Candidates}
    {P : Cell × Candidates → Prop} (hg : ∀ e ∈ grid, P e)
    (hf : ∀ cands, grid.at cell = some cands → P (cell, f cands)) :
    ∀ e ∈ grid.modify cell f, P e := by
  induction grid with
  | nil => simp [Grid.modify]
  | cons e rest ih =>
    obtain ⟨k, v⟩ := e
    simp only [Grid.modify]
    by_cases hk : k = cell
    · simp only [hk, if_true, List.mem_cons, forall_eq_or_imp]
      constructor
      · exact hf v (by simp [Grid.at, hk])
      · intro a ha
        exact hg a (List.mem_cons_of_mem _ ha)
    · simp only [hk, if_false, List.mem_cons, forall_eq_or_imp]
      constructor
      · exact hg _ (List.mem_cons_self _ _)
      · apply ih
        · intro a ha
          exact hg a (List.mem_cons_of_mem _ ha)
        · intro cands hc
          exact hf cands (by simp [Grid.at, hk, hc])

/-! ### Refinement: same keys in the same order, every candidate set a sublist of the old one -/

theorem Refines.refl (grid : Grid) : Refines grid grid := by
  induction grid with
  | nil => exact List.Forall₂.nil
  | cons e rest ih => exact List.Forall₂.cons ⟨rfl, List.Sublist.refl _⟩ ih

theorem Refines.trans {a b c : Grid} (h1 : Refines a b) (h2 : Refines b c) : Refines a c := by
  induction h1 generalizing c with
  | nil => cases h2; exact List.Forall₂.nil
  | cons hab _ ih =>
    cases h2 with
    | cons hbc hrest =>
      exact List.Forall₂.cons ⟨hab.1.trans hbc.1, hab.2.trans hbc.2⟩ (ih hrest)

theorem Refines.keys_eq {a b : Grid} (h : Refines a b) : a.keys = b.keys := by
  induction h with
  | nil => rfl
  | cons hab _ ih =>
    simp only [Grid.keys, List.map_cons] at ih ⊢
    rw [hab.1, ih]

theorem Refines.total_le {a b : Grid} (h : Refines a b) : a.total ≤ b.total := by
  induction h with
  | nil => exact Nat.le_refl _
  | cons hab _ ih =>
    simp only [Grid.total, List.map_cons, List.sum_cons] at ih ⊢
    have := hab.2.length_le
    omega

theorem Refines.at_fine {a b : Grid} (h : Refines a b) {cell : Cell} {x : Candidates}
    (hx : a.at cell = some x) : ∃ y, b.at cell = some y ∧ x.Sublist y := by
  induction h with
  | nil => simp [Grid.at] at hx
  | @cons e1 e2 l1 l2 hab _ ih =>
    obtain ⟨k1, v1⟩ := e1
    obtain ⟨k2, v2⟩ := e2
    simp only at hab
    obtain ⟨hk, hv⟩ := hab
    subst hk
    simp only [Grid.at] at hx ⊢
    by_cases hc : k1 = cell
    · simp only [hc, if_true, Option.some.injEq] at hx ⊢
      subst hx
      exact ⟨v2, rfl, hv⟩
    · simp only [hc, if_false] at hx ⊢
      exact ih hx

theorem Refines.forall_sets {a b : Grid} (h : Refines a b) {P : Candidates → Prop}
    (hP : ∀ x y : Candidates, x.Sublist y → P y → P x) (hb : ∀ e ∈ b, P e.2) :
    ∀ e ∈ a, P e.2 := by
  induction h with
  | nil => simp
  | cons hab _ ih =>
    simp only [List.mem_cons, forall_eq_or_imp] at hb ⊢
    exact ⟨hP _ _ hab.2 hb.1, ih hb.2⟩

theorem Refines.complete {a b : Grid} (h : Refines a b) (hb : b.Complete) : a.Complete := by
  refine ⟨?_, ?_⟩
  · rw [h.keys_eq]
    exact hb.keys_perm
  · apply h.forall_sets (P := fun x => x.Nodup ∧ x.length < sizeMax)
    · intro x y hxy hy
      exact ⟨hy.1.sublist hxy, Nat.lt_of_le_of_lt hxy.length_le hy.2⟩
    · exact hb.sets

theorem refines_modify {grid : Grid} {cell : Cell} {f : Candidates → Candidates}
    (hf : ∀ cands, grid.at cell = some cands → (f cands).Sublist cands) :
    Refines (grid.modify cell f) grid := by
  induction grid with
  | nil => exact List.Forall₂.nil
  | cons e rest ih =>
    obtain ⟨k, v⟩ := e
    simp only [Grid.modify]
    by_cases hk : k = cell
    · simp only [hk, if_true]
      exact List.Forall₂.cons ⟨rfl, hf v (by simp [Grid.at, hk])⟩ (Refines.refl rest)
    · simp only [hk, if_false]
      refine List.Forall₂.cons ⟨rfl, List.Sublist.refl _⟩ (ih ?_)
      intro cands hc
      exact hf cands (by simp [Grid.at, hk, hc])

theorem eraseValue_sublist (value : Nat) (cands : Candidates) :
    (eraseValue value cands).Sublist cands :=
  List.filter_sublist cands

theorem mem_eraseValue {value d : Nat} {cands : Candidates} :
    d ∈ eraseValue value cands ↔ d ∈ cands ∧ d ≠ value := by
  simp [eraseValue]

/-! ### Elimination -/

theorem eraseVisits_refines (value : Nat) :
    ∀ (visits : List Cell) (grid after : Grid) (b : Bool),
      eraseVisits value grid visits = .ok (b, after) → Refines after grid := by
  intro visits
  induction visits with
  | nil =>
    intro grid after b h
    simp only [eraseVisits, Except.ok.injEq, Prod.mk.injEq] at h
    rw [← h.2]
    exact Refines.refl grid
  | cons cell rest ih =>
    intro grid after b h
    have hm : Refines (grid.modify cell (eraseValue value)) grid :=
      refines_modify (fun cands _ => eraseValue_sublist value cands)
    simp only [eraseVisits] at h
    split at h
    · exact absurd h (by simp)
    · split at h
      · simp only [Except.ok.injEq, Prod.mk.injEq] at h
        rw [← h.2]
        exact hm
      · exact (ih _ _ _ h).trans hm

theorem eraseVisits_nonempty (value : Nat) :
    ∀ (visits : List Cell) (grid after : Grid),
      eraseVisits value grid visits = .ok (true, after) →
      (∀ e ∈ grid, e.2 ≠ []) → ∀ e ∈ after, e.2 ≠ [] := by
  intro visits
  induction visits with
  | nil =>
    intro grid after h hg
    simp only [eraseVisits, Except.ok.injEq, Prod.mk.injEq, true_and] at h
    rw [← h]
    exact hg
  | cons cell rest ih =>
    intro grid after h hg
    simp only [eraseVisits] at h
    split at h
    · exact absurd h (by simp)
    · rename_i cands hc
      split at h
      · exact absurd h (by simp)
      · rename_i hne
        apply ih _ _ h
        apply Grid.forall_modify hg
        intro c2 hc2
        rw [hc] at hc2
        simp only [Option.some.injEq] at hc2
        subst hc2
        intro h0
        apply hne
        simp only at h0
        simp [h0]

theorem eraseVisits_ok (value : Nat) :
    ∀ (visits : List Cell) (grid : Grid), (∀ c ∈ visits, c ∈ grid.keys) →
      ∃ b after, eraseVisits value grid visits = .ok (b, after) := by
  intro visits
  induction visits with
  | nil =>
    intro grid _
    exact ⟨true, grid, rfl⟩
  | cons cell rest ih =>
    intro grid hk
    obtain ⟨cands, hc⟩ := Grid.at_of_mem_keys (hk cell (List.mem_cons_self _ _))
    simp only [eraseVisits, hc]
    by_cases he : (eraseValue value cands).isEmpty = true
    · simp only [he, if_true]
      exact ⟨false, _, rfl⟩
    · simp only [he]
      apply ih
      intro c hcr
      rw [Grid.keys_modify]
      exact hk c (List.mem_cons_of_mem _ hcr)

theorem eraseVisits_agrees (value : Nat) (s : Cell → Nat) :
    ∀ (visits : List Cell) (grid : Grid), (∀ c ∈ visits, c ∈ grid.keys) →
      (∀ c ∈ visits, s c ≠ value) → (∀ e ∈ grid, s e.1 ∈ e.2) →
      ∃ after, eraseVisits value grid visits = .ok (true, after) ∧ ∀ e ∈ after, s e.1 ∈ e.2 := by
  intro visits
  induction visits with
  | nil =>
    intro grid _ _ hg
    exact ⟨grid, rfl, hg⟩
  | cons cell rest ih =>
    intro grid hk hs hg
    obtain ⟨cands, hc⟩ := Grid.at_of_mem_keys (hk cell (List.mem_cons_self _ _))
    have hin : s cell ∈ eraseValue value cands :=
      mem_eraseValue.2 ⟨hg _ (Grid.at_mem hc), hs cell (List.mem_cons_self _ _)⟩
    have he : ¬ (eraseValue value cands).isEmpty = true := by
      intro h0
      rw [List.isEmpty_iff] at h0
      rw [h0] at hin
      simp at hin
    simp only [eraseVisits, hc, he]
    apply ih
    · intro c hcr
      rw [Grid.keys_modify]
      exact hk c (List.mem_cons_of_mem _ hcr)
    · intro c hcr
      exact hs c (List.mem_cons_of_mem _ hcr)
    · apply Grid.forall_modify hg
      intro c2 hc2
      rw [hc] at hc2
      simp only [Option.some.injEq] at hc2
      subst hc2
      exact hin

/-! ### Cell selection -/

theorem foldl_scanStep_solved (grid : Grid) (st : Scan) :
    (grid.foldl scanStep st).solved = true ↔
      st.solved = true ∧ ∀ e ∈ grid, e.2.length = 1 := by
  induction grid generalizing st with
  | nil => simp
  | cons e rest ih =>
    simp only [List.foldl_cons, ih, List.mem_cons, forall_eq_or_imp]
    unfold scanStep
    by_cases h1 : e.2.length = 1
    · by_cases h2 : e.2.length > 1 ∧ e.2.length < st.minSize <;> simp [h1, h2]
    · by_cases h2 : e.2.length > 1 ∧ e.2.length < st.minSize <;> simp [h1, h2]

theorem getNextCell_eq_none_iff (grid : Grid) :
    getNextCell grid = none ↔ ∀ e ∈ grid, e.2.length = 1 := by
  unfold getNextCell
  have h := foldl_scanStep_solved grid { minCell := Cell.mk 0 0, minSize := sizeMax, solved := true }
  simp only [true_and] at h
  rw [← h]
  simp only []
  by_cases hs : (grid.foldl scanStep
      { minCell := Cell.mk 0 0, minSize := sizeMax, solved := true }).solved = true <;> simp [hs]

theorem allCells_nodup : allCells.Nodup := by decide!

theorem Grid.Complete.keys_nodup {grid : Grid} (h : grid.Complete) : grid.keys.Nodup :=
  (List.Perm.nodup_iff h.keys_perm).2 allCells_nodup

theorem Grid.Complete.mem_keys_iff {grid : Grid} (h : grid.Complete) {cell : Cell} :
    cell ∈ grid.keys ↔ cell ∈ allCells :=
  List.Perm.mem_iff h.keys_perm

theorem scanStep_minCell (st : Scan) (e : Cell × Candidates) :
    (scanStep st e).minCell =
      if e.2.length > 1 ∧ e.2.length < st.minSize then e.1 else st.minCell := by
  unfold scanStep
  by_cases h1 : e.2.length = 1 <;>
    by_cases h2 : e.2.length > 1 ∧ e.2.length < st.minSize <;> simp [h1, h2]

theorem scanStep_minSize (st : Scan) (e : Cell × Candidates) :
    (scanStep st e).minSize =
      if e.2.length > 1 ∧ e.2.length < st.minSize then e.2.length else st.minSize := by
  unfold scanStep
  by_cases h1 : e.2.length = 1 <;>
    by_cases h2 : e.2.length > 1 ∧ e.2.length < st.minSize <;> simp [h1, h2]

theorem foldl_scanStep_chosen (grid : Grid) :
    ∀ (l : List (Cell × Candidates)) (st : Scan), (∀ e ∈ l, e ∈ grid) →
      (∃ v, (st.minCell, v) ∈ grid ∧ 1 < v.length) →
      ∃ v, ((l.foldl scanStep st).minCell, v) ∈ grid ∧ 1 < v.length := by
  intro l
  induction l with
  | nil => intro st _ h; exact h
  | cons e rest ih =>
    intro st hl h
    simp only [List.foldl_cons]
    apply ih
    · intro a ha
      exact hl a (List.mem_cons_of_mem _ ha)
    · rw [scanStep_minCell]
      by_cases h2 : e.2.length > 1 ∧ e.2.length < st.minSize
      · have hmem : (e.1, e.2) ∈ grid := hl e (List.mem_cons_self _ _)
        rw [if_pos h2]
        exact ⟨e.2, hmem, h2.1⟩
      · rw [if_neg h2]
        exact h

theorem foldl_scanStep_fresh (grid : Grid) :
    ∀ (l : List (Cell × Candidates)) (st : Scan), (∀ e ∈ l, e ∈ grid) →
      (∀ e ∈ l, e.2.length < sizeMax) → st.minSize = sizeMax →
      (∃ v, ((l.foldl scanStep st).minCell, v) ∈ grid ∧ 1 < v.length) ∨
        ∀ e ∈ l, e.2.length ≤ 1 := by
  intro l
  induction l with
  | nil => intro st _ _ _; right; simp
  | cons e rest ih =>
    intro st hl hb hst
    have hl2 : ∀ a ∈ rest, a ∈ grid := fun a ha => hl a (List.mem_cons_of_mem _ ha)
    have hb2 : ∀ a ∈ rest, a.2.length < sizeMax := fun a ha => hb a (List.mem_cons_of_mem _ ha)
    simp only [List.foldl_cons]
    by_cases h2 : e.2.length > 1
    · left
      apply foldl_scanStep_chosen grid rest _ hl2
      have hlt : e.2.length < st.minSize := by
        rw [hst]
        exact hb e (List.mem_cons_self _ _)
      have hmem : (e.1, e.2) ∈ grid := hl e (List.mem_cons_self _ _)
      rw [scanStep_minCell, if_pos ⟨h2, hlt⟩]
      exact ⟨e.2, hmem, h2⟩
    · have hs : (scanStep st e).minSize = sizeMax := by
        rw [scanStep_minSize, if_neg (fun h => h2 h.1), hst]
      rcases ih (scanStep st e) hl2 hb2 hs with h | h
      · left; exact h
      · right
        intro a ha
        rcases List.mem_cons.1 ha with h3 | h3
        · rw [h3]; omega
        · exact h a h3

theorem getNextCell_some_spec {grid : Grid} (hc : grid.Complete) (hne : ∀ e ∈ grid, e.2 ≠ [])
    {cell : Cell} (h : getNextCell grid = some cell) :
    ∃ cands, grid.at cell = some cands ∧ 1 < cands.length := by
  have hs := foldl_scanStep_solved grid { minCell := Cell.mk 0 0, minSize := sizeMax, solved := true }
  have hf := foldl_scanStep_fresh grid grid { minCell := Cell.mk 0 0, minSize := sizeMax, solved := true }
    (fun e he => he) (fun e he => (hc.sets e he).2) rfl
  unfold getNextCell at h
  simp only [] at h
  by_cases hsol : (grid.foldl scanStep
      { minCell := Cell.mk 0 0, minSize := sizeMax, solved := true }).solved = true
  · simp [hsol] at h
  · rw [if_neg hsol] at h
    simp only [Option.some.injEq] at h
    rcases hf with ⟨v, hv, hlen⟩ | hall
    · rw [h] at hv
      exact ⟨v, Grid.at_of_mem hc.keys_nodup hv, hlen⟩
    · exfalso
      apply hsol
      rw [hs]
      refine ⟨rfl, fun e he => ?_⟩
      have h1 := hall e he
      have h2 : e.2.length ≠ 0 := fun h0 => hne e he (List.length_eq_zero.1 h0)
      omega

/-! ### The member `grid_` is written on success only -/

theorem tryValues_false_state (recur : Grid → Grid → Except Fault (Bool × Grid))
    (hrec : ∀ s g s1, recur s g = .ok (false, s1) → s1 = s) (grid : Grid) (cell : Cell) :
    ∀ (cands : List Nat) (s s1 : Grid),
      tryValues recur grid cell s cands = .ok (false, s1) → s1 = s := by
  intro cands
  induction cands with
  | nil =>
    intro s s1 h
    simp only [tryValues, Except.ok.injEq, Prod.mk.injEq, true_and] at h
    exact h.symm
  | cons value rest ih =>
    intro s s1 h
    simp only [tryValues] at h
    split at h
    · exact absurd h (by simp)
    · exact ih s s1 h
    · split at h
      · exact absurd h (by simp)
      · exact absurd h (by simp)
      · rename_i s2 hr
        have h2 : s2 = s := hrec _ _ _ hr
        subst h2
        exact ih _ s1 h

theorem tryFrom_false_state :
    ∀ (fuel : Nat) (s g s1 : Grid), tryFrom fuel s g = .ok (false, s1) → s1 = s := by
  intro fuel
  induction fuel with
  | zero =>
    intro s g s1 h
    simp [tryFrom] at h
  | succ n ih =>
    intro s g s1 h
    simp only [tryFrom] at h
    split at h
    · exact absurd h (by simp)
    · split at h
      · exact absurd h (by simp)
      · exact tryValues_false_state (tryFrom n) ih g _ _ s s1 h

/-! ### Valid completions -/

theorem mem_allCells_iff (c : Cell) : c ∈ allCells ↔ c.row_ < 9 ∧ c.col_ < 9 := by
  obtain ⟨r, k⟩ := c
  simp only [allCells, List.mem_flatMap, List.mem_map, List.mem_range, Cell.mk.injEq]
  constructor
  · rintro ⟨a, ha, b, hb, h1, h2⟩
    subst h1 h2
    exact ⟨ha, hb⟩
  · rintro ⟨h1, h2⟩
    exact ⟨r, h1, k, h2, rfl, rfl⟩

theorem mem_boxVisits {c p : Cell} (h : p ∈ boxVisits c) :
    p ≠ c ∧ p.row_ / 3 = c.row_ / 3 ∧ p.col_ / 3 = c.col_ / 3 := by
  simp only [boxVisits, List.mem_flatMap, List.mem_range] at h
  obtain ⟨i, hi, j, hj, hm⟩ := h
  split at hm
  · rename_i hcond
    simp only [List.mem_singleton] at hm
    subst hm
    refine ⟨?_, ?_, ?_⟩
    · intro heq
      exact hcond ⟨congrArg Cell.row_ heq, congrArg Cell.col_ heq⟩
    · simp only
      omega
    · simp only
      omega
  · simp at hm

theorem mem_lineVisits {c p : Cell} (h : p ∈ lineVisits c) :
    p ≠ c ∧ ((p.col_ = c.col_ ∧ p.row_ < 9) ∨ (p.row_ = c.row_ ∧ p.col_ < 9)) := by
  simp only [lineVisits, List.mem_flatMap, List.mem_range, List.mem_append] at h
  obtain ⟨i, hi, hm | hm⟩ := h
  · split at hm
    · rename_i hcond
      simp only [List.mem_singleton] at hm
      subst hm
      refine ⟨?_, Or.inl ⟨rfl, hi⟩⟩
      intro heq
      exact hcond (congrArg Cell.row_ heq)
    · simp at hm
  · split at hm
    · rename_i hcond
      simp only [List.mem_singleton] at hm
      subst hm
      refine ⟨?_, Or.inr ⟨rfl, hi⟩⟩
      intro heq
      exact hcond (congrArg Cell.col_ heq)
    · simp at hm

theorem mem_rowCells {p : Cell} {r : Nat} : p ∈ rowCells r ↔ p.row_ = r ∧ p.col_ < 9 := by
  obtain ⟨a, b⟩ := p
  simp only [rowCells, List.mem_map, List.mem_range, Cell.mk.injEq]
  constructor
  · rintro ⟨k, hk, h1, h2⟩
    subst h1 h2
    exact ⟨rfl, hk⟩
  · rintro ⟨h1, h2⟩
    exact ⟨b, h2, h1.symm, rfl⟩

theorem mem_colCells {p : Cell} {c : Nat} : p ∈ colCells c ↔ p.col_ = c ∧ p.row_ < 9 := by
  obtain ⟨a, b⟩ := p
  simp only [colCells, List.mem_map, List.mem_range, Cell.mk.injEq]
  constructor
  · rintro ⟨k, hk, h1, h2⟩
    subst h1 h2
    exact ⟨rfl, hk⟩
  · rintro ⟨h1, h2⟩
    exact ⟨a, h2, rfl, h1.symm⟩

theorem mem_boxCells {p : Cell} (hr : p.row_ < 9) (hc : p.col_ < 9) :
    p ∈ boxCells (p.row_ / 3 * 3 + p.col_ / 3) := by
  obtain ⟨a, b⟩ := p
  simp only at hr hc
  simp only [boxCells, List.mem_map, List.mem_range, Cell.mk.injEq]
  exact ⟨a % 3 * 3 + b % 3, by omega, by omega, by omega⟩

theorem visits_peers : ∀ c ∈ allCells, ∀ p ∈ boxVisits c ++ lineVisits c,
    p ∈ allCells ∧ p ≠ c ∧ ∃ u ∈ units, c ∈ u ∧ p ∈ u := by
  intro c hc p hp
  have hc9 := (mem_allCells_iff c).1 hc
  rcases List.mem_append.1 hp with hb | hl
  · obtain ⟨hne, h1, h2⟩ := mem_boxVisits hb
    have hp9 : p.row_ < 9 ∧ p.col_ < 9 := by omega
    refine ⟨(mem_allCells_iff p).2 hp9, hne, boxCells (c.row_ / 3 * 3 + c.col_ / 3), ?_,
      mem_boxCells hc9.1 hc9.2, ?_⟩
    · simp only [units, List.mem_append, List.mem_map, List.mem_range]
      exact Or.inr ⟨c.row_ / 3 * 3 + c.col_ / 3, by omega, rfl⟩
    · rw [← h1, ← h2]
      exact mem_boxCells hp9.1 hp9.2
  · obtain ⟨hne, h | h⟩ := mem_lineVisits hl
    · refine ⟨(mem_allCells_iff p).2 ⟨h.2, by omega⟩, hne, colCells c.col_, ?_,
        mem_colCells.2 ⟨rfl, hc9.1⟩, mem_colCells.2 h⟩
      simp only [units, List.mem_append, List.mem_map, List.mem_range]
      exact Or.inl (Or.inr ⟨c.col_, hc9.2, rfl⟩)
    · refine ⟨(mem_allCells_iff p).2 ⟨by omega, h.2⟩, hne, rowCells c.row_, ?_,
        mem_rowCells.2 ⟨rfl, hc9.2⟩, mem_rowCells.2 h⟩
      simp only [units, List.mem_append, List.mem_map, List.mem_range]
      exact Or.inl (Or.inl ⟨c.row_, hc9.1, rfl⟩)

theorem units_shape : ∀ u ∈ units, u.Nodup ∧ u.length = 9 := by decide!

theorem perm_digits_of_each_digit_once (l : List Nat) (hlen : l.length = 9)
    (h : ∀ d ∈ digits, l.count d = 1) : digits.Perm l := by
  have hsub : digits ⊆ l := by
    intro d hd
    apply List.count_pos_iff.1
    rw [h d hd]
    exact Nat.one_pos
  have hnd : digits.Nodup := by decide
  exact (List.subperm_of_subset hnd hsub).perm_of_length_le (by rw [hlen]; decide)

theorem nodup_of_each_digit_once (l : List Nat) (hlen : l.length = 9)
    (h : ∀ d ∈ digits, l.count d = 1) : l.Nodup :=
  (List.Perm.nodup_iff (perm_digits_of_each_digit_once l hlen h)).1 (by decide)

theorem isValidSolution_units {s : Grid} (h : isValidSolution s = true) :
    ∀ u ∈ units, ∀ d ∈ digits, (u.map (valueAt s)).count d = 1 := by
  intro u hu d hd
  simp only [isValidSolution, Bool.and_eq_true, List.all_eq_true, beq_iff_eq] at h
  exact h.2 u hu d hd

theorem isValidSolution_determined {s : Grid} (h : isValidSolution s = true) :
    ∀ c ∈ allCells, s.at c = some [valueAt s c] := by
  intro c hc
  simp only [isValidSolution, Bool.and_eq_true, List.all_eq_true] at h
  have hd := h.1 c hc
  unfold isDetermined at hd
  unfold valueAt
  split at hd
  · rename_i d hd2
    simp [hd2]
  · exact absurd hd (by simp)

theorem isValidSolution_peers {s : Grid} (h : isValidSolution s = true) :
    ∀ c ∈ allCells, ∀ p ∈ boxVisits c ++ lineVisits c, valueAt s p ≠ valueAt s c := by
  intro c hc p hp hv
  obtain ⟨_, hne, u, hu, hcu, hpu⟩ := visits_peers c hc p hp
  have hshape := units_shape u hu
  have hnd : (u.map (valueAt s)).Nodup :=
    nodup_of_each_digit_once _ (by rw [List.length_map]; exact hshape.2)
      (isValidSolution_units h u hu)
  exact hne (List.inj_on_of_nodup_map hnd hpu hcu hv)

theorem isValidSolution_digit {s : Grid} (h : isValidSolution s = true) :
    ∀ c ∈ allCells, valueAt s c ∈ digits := by
  intro c hc
  have hc9 := (mem_allCells_iff c).1 hc
  have hu : rowCells c.row_ ∈ units := by
    simp only [units, List.mem_append, List.mem_map, List.mem_range]
    exact Or.inl (Or.inl ⟨c.row_, hc9.1, rfl⟩)
  have hperm := perm_digits_of_each_digit_once ((rowCells c.row_).map (valueAt s))
    (by rw [List.length_map]; exact (units_shape _ hu).2) (isValidSolution_units h _ hu)
  exact (List.Perm.mem_iff hperm).2
    (List.mem_map.2 ⟨c, mem_rowCells.2 ⟨rfl, hc9.2⟩, rfl⟩)

/-! ### Construction -/

theorem hookInBucket_perm (buckets : Nat) (node : Cell × Candidates) :
    ∀ (grid hooked : Grid), hookInBucket buckets node grid = some hooked →
      hooked.Perm (node :: grid) := by
  intro grid
  induction grid with
  | nil =>
    intro hooked h
    simp [hookInBucket] at h
  | cons e rest ih =>
    intro hooked h
    rw [hookInBucket] at h
    by_cases hb : hashCell e.1 % buckets = hashCell node.1 % buckets
    · rw [if_pos hb] at h
      simp only [Option.some.injEq] at h
      rw [← h]
    · rw [if_neg hb] at h
      cases hr : hookInBucket buckets node rest with
      | none =>
        rw [hr] at h
        simp at h
      | some inner =>
        rw [hr] at h
        simp only [Option.map_some', Option.some.injEq] at h
        rw [← h]
        exact ((ih inner hr).cons e).trans (List.Perm.swap node e rest)

theorem Grid.insertBucketBegin_perm (grid : Grid) (buckets : Nat) (node : Cell × Candidates) :
    (grid.insertBucketBegin buckets node).Perm (node :: grid) := by
  unfold Grid.insertBucketBegin
  cases hr : hookInBucket buckets node grid with
  | none => exact List.Perm.refl _
  | some hooked => exact hookInBucket_perm buckets node grid hooked hr

theorem foldl_insertBucketBegin_perm (buckets : Nat) :
    ∀ (nodes acc : Grid),
      (nodes.foldl (fun acc node => Grid.insertBucketBegin acc buckets node) acc).Perm
        (nodes ++ acc) := by
  intro nodes
  induction nodes with
  | nil => intro acc; exact List.Perm.refl _
  | cons node rest ih =>
    intro acc
    simp only [List.foldl_cons, List.cons_append]
    refine (ih _).trans ?_
    exact (List.Perm.append_left rest (Grid.insertBucketBegin_perm acc buckets node)).trans
      List.perm_middle

theorem Grid.rehash_perm (grid : Grid) (buckets : Nat) : (grid.rehash buckets).Perm grid := by
  have h := foldl_insertBucketBegin_perm buckets grid []
  simpa [Grid.rehash] using h

theorem Grid.insertUniqueNode_perm (grid : Grid) (node : Cell × Candidates) :
    (grid.insertUniqueNode node).Perm (node :: grid) := by
  unfold Grid.insertUniqueNode
  split
  · exact Grid.insertBucketBegin_perm _ _ _
  · exact (Grid.insertBucketBegin_perm _ _ _).trans ((Grid.rehash_perm grid _).cons node)

theorem Grid.mem_keys_insertUniqueNode (grid : Grid) (node : Cell × Candidates) (c : Cell) :
    c ∈ (grid.insertUniqueNode node).keys ↔ c = node.1 ∨ c ∈ grid.keys := by
  have h : (grid.insertUniqueNode node).keys.Perm (node.1 :: grid.keys) := by
    simpa [Grid.keys] using (Grid.insertUniqueNode_perm grid node).map Prod.fst
  rw [h.mem_iff, List.mem_cons]

/-! The place of a node depends on the keys only: hooking commutes with every change of the
candidate sets that leaves the keys alone. -/

theorem hookInBucket_map (f : Cell × Candidates → Cell × Candidates) (hf : ∀ e, (f e).1 = e.1)
    (buckets : Nat) (node : Cell × Candidates) :
    ∀ grid : Grid, hookInBucket buckets (f node) (grid.map f) =
      (hookInBucket buckets node grid).map (List.map f) := by
  intro grid
  induction grid with
  | nil => rfl
  | cons e rest ih =>
    simp only [List.map_cons, hookInBucket, hf]
    by_cases hb : hashCell e.1 % buckets = hashCell node.1 % buckets
    · simp only [hb, if_true, Option.map_some', List.map_cons]
    · simp only [hb, if_false, ih, Option.map_map]
      rfl

theorem Grid.insertBucketBegin_map (f : Cell × Candidates → Cell × Candidates)
    (hf : ∀ e, (f e).1 = e.1) (buckets : Nat) (node : Cell × Candidates) (grid : Grid) :
    Grid.insertBucketBegin (grid.map f) buckets (f node) =
      (grid.insertBucketBegin buckets node).map f := by
  unfold Grid.insertBucketBegin
  rw [hookInBucket_map f hf]
  cases hookInBucket buckets node grid with
  | none => rfl
  | some hooked => rfl

theorem foldl_insertBucketBegin_map (f : Cell × Candidates → Cell × Candidates)
    (hf : ∀ e, (f e).1 = e.1) (buckets : Nat) :
    ∀ (nodes acc : Grid),
      (nodes.map f).foldl (fun acc node => Grid.insertBucketBegin acc buckets node) (acc.map f) =
        (nodes.foldl (fun acc node => Grid.insertBucketBegin acc buckets node) acc).map f := by
  intro nodes
  induction nodes with
  | nil => intro acc; rfl
  | cons node rest ih =>
    intro acc
    simp only [List.map_cons, List.foldl_cons]
    rw [Grid.insertBucketBegin_map f hf, ih]

theorem Grid.rehash_map (f : Cell × Candidates → Cell × Candidates) (hf : ∀ e, (f e).1 = e.1)
    (buckets : Nat) (grid : Grid) :
    Grid.rehash (grid.map f) buckets = (grid.rehash buckets).map f := by
  have h := foldl_insertBucketBegin_map f hf buckets grid []
  simpa [Grid.rehash] using h

theorem Grid.insertUniqueNode_map (f : Cell × Candidates → Cell × Candidates)
    (hf : ∀ e, (f e).1 = e.1) (node : Cell × Candidates) (grid : Grid) :
    Grid.insertUniqueNode (grid.map f) (f node) = (grid.insertUniqueNode node).map f := by
  unfold Grid.insertUniqueNode
  simp only [List.length_map]
  split
  · exact Grid.insertBucketBegin_map f hf _ _ _
  · rw [Grid.rehash_map f hf, Grid.insertBucketBegin_map f hf]

theorem Grid.keys_map (f : Cell × Candidates → Cell × Candidates) (hf : ∀ e, (f e).1 = e.1)
    (grid : Grid) : Grid.keys (grid.map f) = grid.keys := by
  simp only [Grid.keys, List.map_map]
  apply List.map_congr_left
  intro e _
  exact hf e

theorem readCells_eq (f : Cell × Candidates → Cell × Candidates) (hf : ∀ e, (f e).1 = e.1) :
    ∀ (cells : List Cell) (tokens : List Char) (grid : Grid),
      cells.length ≤ tokens.length → cells.Nodup → (∀ c ∈ cells, c ∉ grid.keys) →
      (∀ p ∈ cells.zip tokens, f (p.1, []) = (p.1, entryOf p.2)) →
      readCells cells tokens (grid.map f) =
        .ok ((cells.foldl (fun g c => Grid.insertUniqueNode g (c, [])) grid).map f) := by
  intro cells
  induction cells with
  | nil =>
    intro tokens grid _ _ _ _
    simp [readCells]
  | cons cell rest ih =>
    intro tokens grid hlen hnd hnew hval
    cases tokens with
    | nil => simp at hlen
    | cons value more =>
      simp only [List.length_cons, Nat.add_le_add_iff_right] at hlen
      rw [List.nodup_cons] at hnd
      have hnone : Grid.at (grid.map f) cell = none := by
        apply Grid.at_eq_none_iff.2
        rw [Grid.keys_map f hf]
        exact hnew cell (List.mem_cons_self _ _)
      have hcell : f (cell, []) = (cell, entryOf value) :=
        hval (cell, value) (by simp)
      have hstep : ∀ c ∈ rest, c ∉ (Grid.insertUniqueNode grid (cell, [])).keys := by
        intro c hc hmem
        rcases (Grid.mem_keys_insertUniqueNode grid (cell, []) c).1 hmem with h | h
        · rw [h] at hc
          exact hnd.1 hc
        · exact hnew c (List.mem_cons_of_mem _ hc) h
      have hrest : ∀ p ∈ rest.zip more, f (p.1, []) = (p.1, entryOf p.2) := by
        intro p hp
        exact hval p (by simp [hp])
      have hins : Grid.insertUniqueNode (grid.map f) (cell, entryOf value) =
          (Grid.insertUniqueNode grid (cell, [])).map f := by
        rw [← hcell]
        exact Grid.insertUniqueNode_map f hf _ _
      rw [readCells]
      by_cases hd : ((value.toNat : Int) - 48) ∈ digits.map Int.ofNat
      · rw [if_pos hd]
        have he : entryOf value = [((value.toNat : Int) - 48).toNat] := by
          unfold entryOf
          rw [if_pos hd]
        simp only [Grid.insertValue, hnone]
        rw [← he, hins, ih more _ hlen hnd.2 hstep hrest]
        rfl
      · rw [if_neg hd]
        have he : entryOf value = digits := by
          unfold entryOf
          rw [if_neg hd]
        simp only [Grid.setCandidates, hnone]
        rw [← he, hins, ih more _ hlen hnd.2 hstep hrest]
        rfl

/-- The order in which the library lists the 81 keys after the insertions of `read`. -/
theorem hashOrder_eq :
    allCells.foldl (fun g c => Grid.insertUniqueNode g (c, [])) [] =
      hashOrder.map fun c => (c, []) := by decide!

theorem hashOrder_perm : hashOrder.Perm allCells := by decide!

theorem hashOrder_nodup : hashOrder.Nodup := hashOrder_perm.nodup_iff.2 allCells_nodup

theorem allCells_getElem? : ∀ k, k < 81 → allCells[k]? = some (Cell.mk (k / 9) (k % 9)) := by
  decide!

theorem mem_allCells_zip {tokens : List Char} {p : Cell × Char} (hp : p ∈ allCells.zip tokens) :
    ∃ k, k < 81 ∧ p.1 = Cell.mk (k / 9) (k % 9) ∧ tokens[k]? = some p.2 := by
  obtain ⟨k, hk⟩ := List.mem_iff_getElem?.1 hp
  obtain ⟨c, v⟩ := p
  rw [List.getElem?_zip_eq_some] at hk
  have hlt : k < 81 := by
    have h81 : allCells.length = 81 := by decide
    have := (List.getElem?_eq_some_iff.1 hk.1).1
    omega
  have hc := allCells_getElem? k hlt
  rw [hk.1] at hc
  simp only [Option.some.injEq] at hc
  exact ⟨k, hlt, hc, hk.2⟩

theorem read_eq (tokens : List Char) (hlen : 81 ≤ tokens.length) :
    read (some tokens) =
      .ok (hashOrder.map fun c => (c, entryOf (tokens.getD (9 * c.row_ + c.col_) '-'))) := by
  have h := readCells_eq
    (fun e => (e.1, entryOf (tokens.getD (9 * e.1.row_ + e.1.col_) '-'))) (fun _ => rfl)
    allCells tokens [] (by
      have : allCells.length = 81 := by decide
      omega) allCells_nodup (by
      intro c _ h
      simp [Grid.keys] at h) (by
      intro p hp
      obtain ⟨k, hk, hc, hv⟩ := mem_allCells_zip hp
      have hidx : 9 * p.1.row_ + p.1.col_ = k := by
        rw [hc]
        simp only
        omega
      simp only [hidx, List.getD_eq_getElem?_getD, hv, Option.getD_some])
  simp only [List.map_nil, hashOrder_eq, List.map_map] at h
  simpa [read] using h

theorem read_keys (tokens : List Char) :
    Grid.keys (hashOrder.map fun c => (c, entryOf (tokens.getD (9 * c.row_ + c.col_) '-'))) =
      hashOrder := by
  simp only [Grid.keys, List.map_map]
  exact List.map_id _

theorem read_at (tokens : List Char) (k : Nat) (hk : k < 81)
    (value : Char) (hv : tokens[k]? = some value) :
    Grid.at (hashOrder.map fun c => (c, entryOf (tokens.getD (9 * c.row_ + c.col_) '-')))
      (Cell.mk (k / 9) (k % 9)) = some (entryOf value) := by
  apply Grid.at_of_mem
  · rw [read_keys tokens]
    exact hashOrder_nodup
  · apply List.mem_map.2
    refine ⟨Cell.mk (k / 9) (k % 9), ?_, ?_⟩
    · rw [hashOrder_perm.mem_iff, mem_allCells_iff]
      simp only
      omega
    · have hidx : 9 * (k / 9) + k % 9 = k := by omega
      simp only [hidx, List.getD_eq_getElem?_getD, hv, Option.getD_some]

theorem entryOf_digit : ∀ d ∈ digits, entryOf (Char.ofNat (48 + d)) = [d] := by
  decide

theorem entryOf_other (value : Char) (h : ∀ d ∈ digits, value ≠ Char.ofNat (48 + d)) :
    entryOf value = digits := by
  unfold entryOf
  rw [if_neg]
  intro hmem
  obtain ⟨d, hd, heq⟩ := List.mem_map.1 hmem
  apply h d hd
  have hnat : value.toNat = 48 + d := by
    have : (d : Int) = (value.toNat : Int) - 48 := heq
    omega
  rw [← hnat, Char.ofNat_toNat]

theorem read_spec (tokens : List Char) (hlen : 81 ≤ tokens.length) :
    ∃ grid, read (some tokens) = .ok grid ∧ grid.keys = hashOrder ∧ grid.keys.Perm allCells ∧
      ∀ k value, k < 81 → tokens[k]? = some value →
        (∀ d ∈ digits, value = Char.ofNat (48 + d) →
          grid.at (Cell.mk (k / 9) (k % 9)) = some [d]) ∧
        ((∀ d ∈ digits, value ≠ Char.ofNat (48 + d)) →
          grid.at (Cell.mk (k / 9) (k % 9)) = some digits) := by
  refine ⟨_, read_eq tokens hlen, read_keys tokens, ?_, ?_⟩
  · rw [read_keys tokens]
    exact hashOrder_perm
  intro k value hk hv
  have hat := read_at tokens k hk value hv
  constructor
  · intro d hd hval
    rw [hat, hval, entryOf_digit d hd]
  · intro hno
    rw [hat, entryOf_other value hno]

/-! ### The grid of a list of tokens -/

theorem puzzleWith_keys (cells : List Cell) (blank : Candidates) (tokens : List Nat) :
    (puzzleWith cells blank tokens).keys = cells := by
  simp only [puzzleWith, Grid.keys, List.map_map]
  conv_rhs => rw [← List.map_id cells]
  apply List.map_congr_left
  intro c _
  simp only [Function.comp_apply, id_eq]
  split <;> rfl

theorem puzzleWith_complete {cells : List Cell} (hp : cells.Perm allCells) {blank : Candidates}
    (hb : blank.Nodup) (hl : blank.length < sizeMax) (tokens : List Nat) :
    (puzzleWith cells blank tokens).Complete := by
  refine ⟨?_, ?_⟩
  · rw [puzzleWith_keys]
    exact hp
  · intro e he
    obtain ⟨c, _, hc⟩ := List.mem_map.1 he
    rw [← hc]
    split
    · exact ⟨hb, hl⟩
    · exact ⟨List.nodup_singleton _, (by decide : 1 < sizeMax)⟩

theorem puzzle_complete (tokens : List Nat) : (puzzle tokens).Complete :=
  puzzleWith_complete hashOrder_perm (by decide) (by decide) tokens

theorem puzzleRowMajor_complete (tokens : List Nat) : (puzzleRowMajor tokens).Complete :=
  puzzleWith_complete (List.Perm.refl _) (by decide) (by decide) tokens

theorem entryOf_tokenOf (value : Char) :
    entryOf value = if tokenOf value = 0 then digits else [tokenOf value] := by
  unfold entryOf tokenOf
  by_cases hd : ((value.toNat : Int) - 48) ∈ digits.map Int.ofNat
  · rw [if_pos hd, if_pos hd, if_neg]
    intro h0
    obtain ⟨d, hd1, heq⟩ := List.mem_map.1 hd
    have hd0 : d ≠ 0 := by
      intro h
      rw [h] at hd1
      exact absurd hd1 (by decide)
    have : (d : Int) = (value.toNat : Int) - 48 := heq
    omega
  · rw [if_neg hd, if_neg hd, if_pos rfl]

/-- The grid `read` builds from a source of 81 tokens is the grid `puzzle` of its tokens. -/
theorem read_eq_puzzle (tokens : List Char) (hlen : 81 ≤ tokens.length) :
    read (some tokens) = .ok (puzzle (tokens.map tokenOf)) := by
  rw [read_eq tokens hlen]
  unfold puzzle puzzleWith
  congr 1
  apply List.map_congr_left
  intro c _
  have hget : (tokens.map tokenOf).getD (9 * c.row_ + c.col_) 0 =
      tokenOf (tokens.getD (9 * c.row_ + c.col_) '-') := by
    have h0 : tokenOf '-' = 0 := by decide
    rw [← h0]
    simp only [List.getD_eq_getElem?_getD, List.getElem?_map]
    cases tokens[9 * c.row_ + c.col_]? with
    | none => rfl
    | some v => rfl
  rw [hget, entryOf_tokenOf]
  split <;> rfl
/-! ### The search -/

theorem Grid.assign_eq_modify {grid : Grid} {cell : Cell} {cands : Candidates} (value : Nat)
    (h : grid.at cell = some cands) :
    grid.assign cell value = grid.modify cell (fun _ => [value]) := by
  simp [Grid.assign, h]

theorem Grid.mem_keys_of_at {grid : Grid} {cell : Cell} {cands : Candidates}
    (h : grid.at cell = some cands) : cell ∈ grid.keys :=
  List.mem_map.2 ⟨(cell, cands), Grid.at_mem h, rfl⟩

theorem visits_mem_keys {grid : Grid} (hc : grid.Complete) {cell : Cell} {cands : Candidates}
    (hat : grid.at cell = some cands) (value : Nat) :
    ∀ p ∈ boxVisits cell ++ lineVisits cell, p ∈ (grid.assign cell value).keys := by
  intro p hp
  rw [Grid.assign_eq_modify value hat, Grid.keys_modify]
  have hcell : cell ∈ allCells := hc.mem_keys_iff.1 (Grid.mem_keys_of_at hat)
  exact hc.mem_keys_iff.2 (visits_peers cell hcell p hp).1

theorem branch_ok {grid : Grid} (hs : Searchable grid) {cell : Cell} {cands : Candidates}
    (hat : grid.at cell = some cands) {value : Nat} (hv : value ∈ cands) :
    ∃ b next, removeCandidate (grid.assign cell value) cell value = .ok (b, next) ∧
      Refines next grid ∧
      (b = true → Searchable next ∧ next.total + cands.length ≤ grid.total + 1) := by
  obtain ⟨b, next, hr⟩ := eraseVisits_ok value (boxVisits cell ++ lineVisits cell)
    (grid.assign cell value) (visits_mem_keys hs.1 hat value)
  have href1 : Refines next (grid.assign cell value) := eraseVisits_refines value _ _ _ _ hr
  have href2 : Refines (grid.assign cell value) grid := by
    rw [Grid.assign_eq_modify value hat]
    apply refines_modify
    intro c2 hc2
    rw [hat] at hc2
    simp only [Option.some.injEq] at hc2
    subst hc2
    exact List.singleton_sublist.2 hv
  refine ⟨b, next, hr, href1.trans href2, ?_⟩
  intro hb
  subst hb
  refine ⟨⟨(href1.trans href2).complete hs.1, ?_⟩, ?_⟩
  · apply eraseVisits_nonempty value _ _ _ hr
    rw [Grid.assign_eq_modify value hat]
    apply Grid.forall_modify hs.2
    intro c2 _
    simp
  · have h1 := href1.total_le
    have h2 := Grid.total_modify (fun _ => [value]) hat
    rw [← Grid.assign_eq_modify value hat] at h2
    simp only [List.length_singleton] at h2
    omega

theorem branch_agrees {grid : Grid} (hc : grid.Complete) {s : Grid}
    (hv : isValidSolution s = true) (hag : ∀ e ∈ grid, valueAt s e.1 ∈ e.2)
    {cell : Cell} {cands : Candidates} (hat : grid.at cell = some cands) :
    ∃ next, removeCandidate (grid.assign cell (valueAt s cell)) cell (valueAt s cell) =
        .ok (true, next) ∧ ∀ e ∈ next, valueAt s e.1 ∈ e.2 := by
  have hcell : cell ∈ allCells := hc.mem_keys_iff.1 (Grid.mem_keys_of_at hat)
  apply eraseVisits_agrees (valueAt s cell) (valueAt s) _ _
    (visits_mem_keys hc hat (valueAt s cell))
    (fun p hp => isValidSolution_peers hv cell hcell p hp)
  rw [Grid.assign_eq_modify _ hat]
  apply Grid.forall_modify hag
  intro c2 _
  simp

theorem tryValues_spec (n : Nat) (recur : Grid → Grid → Except Fault (Bool × Grid))
    (hrec : ∀ st g, Searchable g → g.total < n → ∃ b st1, recur st g = .ok (b, st1) ∧
      ((∃ s, isValidSolution s = true ∧ ∀ e ∈ g, valueAt s e.1 ∈ e.2) → b = true))
    {grid : Grid} (hs : Searchable grid) {cell : Cell} {cands : Candidates}
    (hat : grid.at cell = some cands) (hlen : 1 < cands.length) (htot : grid.total ≤ n) :
    ∀ (vs : List Nat), (∀ v ∈ vs, v ∈ cands) → ∀ st,
      ∃ b st1, tryValues recur grid cell st vs = .ok (b, st1) ∧
        (∀ s, isValidSolution s = true → (∀ e ∈ grid, valueAt s e.1 ∈ e.2) →
          valueAt s cell ∈ vs → b = true) := by
  intro vs
  induction vs with
  | nil =>
    intro _ st
    exact ⟨false, st, rfl, fun s _ _ h => absurd h (List.not_mem_nil _)⟩
  | cons v rest ih =>
    intro hvs st
    have hrest : ∀ w ∈ rest, w ∈ cands := fun w hw => hvs w (List.mem_cons_of_mem _ hw)
    obtain ⟨b0, next, hrc, _, hb0⟩ := branch_ok hs hat (hvs v (List.mem_cons_self _ _))
    cases b0 with
    | false =>
      obtain ⟨b, st1, hrun, hcompl⟩ := ih hrest st
      refine ⟨b, st1, ?_, ?_⟩
      · simp only [tryValues, hrc]
        exact hrun
      · intro s hv hag hmem
        rcases List.mem_cons.1 hmem with h1 | h1
        · obtain ⟨next2, hr2, _⟩ := branch_agrees hs.1 hv hag hat
          rw [h1, hrc] at hr2
          simp at hr2
        · exact hcompl s hv hag h1
    | true =>
      obtain ⟨hsn, htn⟩ := hb0 rfl
      have hlt : next.total < n := by omega
      obtain ⟨b2, st2, hr2, hc2⟩ := hrec st next hsn hlt
      cases b2 with
      | true =>
        refine ⟨true, st2, ?_, fun _ _ _ _ => rfl⟩
        simp only [tryValues, hrc, hr2]
      | false =>
        obtain ⟨b, st1, hrun, hcompl⟩ := ih hrest st2
        refine ⟨b, st1, ?_, ?_⟩
        · simp only [tryValues, hrc, hr2]
          exact hrun
        · intro s hv hag hmem
          rcases List.mem_cons.1 hmem with h1 | h1
          · obtain ⟨next2, hr3, hag2⟩ := branch_agrees hs.1 hv hag hat
            rw [h1, hrc] at hr3
            simp only [Except.ok.injEq, Prod.mk.injEq, true_and] at hr3
            subst hr3
            have := hc2 ⟨s, hv, hag2⟩
            simp at this
          · exact hcompl s hv hag h1

theorem tryFrom_spec :
    ∀ (n : Nat) (st grid : Grid), Searchable grid → grid.total < n →
      ∃ b st1, tryFrom n st grid = .ok (b, st1) ∧
        ((∃ s, isValidSolution s = true ∧ ∀ e ∈ grid, valueAt s e.1 ∈ e.2) → b = true) := by
  intro n
  induction n with
  | zero =>
    intro st grid _ h
    exact absurd h (Nat.not_lt_zero _)
  | succ n ih =>
    intro st grid hs htot
    cases hgn : getNextCell grid with
    | none =>
      refine ⟨true, grid, ?_, fun _ => rfl⟩
      simp only [tryFrom, hgn]
    | some cell =>
      obtain ⟨cands, hat, hlen⟩ := getNextCell_some_spec hs.1 hs.2 hgn
      obtain ⟨b, st1, hrun, hcompl⟩ := tryValues_spec n (tryFrom n) ih hs hat hlen
        (Nat.le_of_lt_succ htot) cands (fun v hv => hv) st
      refine ⟨b, st1, ?_, ?_⟩
      · simp only [tryFrom, hgn, hat]
        exact hrun
      · rintro ⟨s, hv, hag⟩
        exact hcompl s hv hag (hag _ (Grid.at_mem hat))

/-! ### More fuel changes no result -/

theorem tryValues_mono (r1 r2 : Grid → Grid → Except Fault (Bool × Grid))
    (h12 : ∀ st g res, r1 st g = .ok res → r2 st g = .ok res) (grid : Grid) (cell : Cell) :
    ∀ (vs : List Nat) (st : Grid) (res : Bool × Grid),
      tryValues r1 grid cell st vs = .ok res → tryValues r2 grid cell st vs = .ok res := by
  intro vs
  induction vs with
  | nil =>
    intro st res h
    simpa [tryValues] using h
  | cons v rest ih =>
    intro st res h
    simp only [tryValues] at h ⊢
    split at h
    · exact absurd h (by simp)
    · exact ih _ _ h
    · split at h
      · exact absurd h (by simp)
      · rename_i result hr
        simp only [h12 _ _ _ hr]
        exact h
      · rename_i st2 hr
        simp only [h12 _ _ _ hr]
        exact ih _ _ h

theorem tryFrom_mono :
    ∀ (n : Nat) (st grid : Grid) (res : Bool × Grid),
      tryFrom n st grid = .ok res → tryFrom (n + 1) st grid = .ok res := by
  intro n
  induction n with
  | zero =>
    intro st grid res h
    simp [tryFrom] at h
  | succ n ih =>
    intro st grid res h
    rw [tryFrom] at h ⊢
    split at h
    · exact h
    · split at h
      · exact absurd h (by simp)
      · exact tryValues_mono (tryFrom n) (tryFrom (n + 1)) ih _ _ _ _ _ h

theorem tryFrom_mono_le {n m : Nat} (hnm : n ≤ m) (st grid : Grid) (res : Bool × Grid)
    (h : tryFrom n st grid = .ok res) : tryFrom m st grid = .ok res := by
  induction hnm with
  | refl => exact h
  | step _ ih => exact tryFrom_mono _ _ _ _ ih

/-! ### What a successful search returns -/

theorem Refines.at_coarse {a b : Grid} (h : Refines a b) {cell : Cell} {y : Candidates}
    (hy : b.at cell = some y) : ∃ x, a.at cell = some x ∧ x.Sublist y := by
  induction h with
  | nil => simp [Grid.at] at hy
  | @cons e1 e2 l1 l2 hab _ ih =>
    obtain ⟨k1, v1⟩ := e1
    obtain ⟨k2, v2⟩ := e2
    simp only at hab
    obtain ⟨hk, hv⟩ := hab
    subst hk
    simp only [Grid.at] at hy ⊢
    by_cases hc : k1 = cell
    · simp only [hc, if_true, Option.some.injEq] at hy ⊢
      subst hy
      exact ⟨v1, rfl, hv⟩
    · simp only [hc, if_false] at hy ⊢
      exact ih hy

theorem branch_refines {grid : Grid} {cell : Cell} {cands : Candidates}
    (hat : grid.at cell = some cands) {value : Nat} (hv : value ∈ cands) {b : Bool} {next : Grid}
    (hr : removeCandidate (grid.assign cell value) cell value = .ok (b, next)) :
    Refines next grid := by
  have href1 : Refines next (grid.assign cell value) := eraseVisits_refines value _ _ _ _ hr
  have href2 : Refines (grid.assign cell value) grid := by
    rw [Grid.assign_eq_modify value hat]
    apply refines_modify
    intro c2 hc2
    rw [hat] at hc2
    simp only [Option.some.injEq] at hc2
    subst hc2
    exact List.singleton_sublist.2 hv
  exact href1.trans href2

theorem tryValues_true_result (recur : Grid → Grid → Except Fault (Bool × Grid))
    (hrec : ∀ st g res, recur st g = .ok (true, res) →
      Refines res g ∧ ∀ e ∈ res, e.2.length = 1)
    {grid : Grid} {cell : Cell} {cands : Candidates} (hat : grid.at cell = some cands) :
    ∀ (vs : List Nat), (∀ v ∈ vs, v ∈ cands) → ∀ (st res : Grid),
      tryValues recur grid cell st vs = .ok (true, res) →
      Refines res grid ∧ ∀ e ∈ res, e.2.length = 1 := by
  intro vs
  induction vs with
  | nil =>
    intro _ st res h
    simp [tryValues] at h
  | cons v rest ih =>
    intro hvs st res h
    have hrest : ∀ w ∈ rest, w ∈ cands := fun w hw => hvs w (List.mem_cons_of_mem _ hw)
    have hrc : ∀ b next, removeCandidate (grid.assign cell v) cell v = .ok (b, next) →
        Refines next grid :=
      fun b next hr => branch_refines hat (hvs v (List.mem_cons_self _ _)) hr
    simp only [tryValues] at h
    split at h
    · exact absurd h (by simp)
    · exact ih hrest _ _ h
    · rename_i next hr
      have hn := hrc _ _ hr
      split at h
      · exact absurd h (by simp)
      · rename_i result hr2
        simp only [Except.ok.injEq, Prod.mk.injEq, true_and] at h
        subst h
        obtain ⟨h1, h2⟩ := hrec _ _ _ hr2
        exact ⟨h1.trans hn, h2⟩
      · exact ih hrest _ _ h

theorem tryFrom_true_result :
    ∀ (n : Nat) (st grid res : Grid), tryFrom n st grid = .ok (true, res) →
      Refines res grid ∧ ∀ e ∈ res, e.2.length = 1 := by
  intro n
  induction n with
  | zero =>
    intro st grid res h
    simp [tryFrom] at h
  | succ n ih =>
    intro st grid res h
    rw [tryFrom] at h
    split at h
    · rename_i hgn
      simp only [Except.ok.injEq, Prod.mk.injEq, true_and] at h
      subst h
      exact ⟨Refines.refl _, (getNextCell_eq_none_iff _).1 hgn⟩
    · split at h
      · exact absurd h (by simp)
      · rename_i cands hat
        exact tryValues_true_result (tryFrom n) ih hat cands (fun v hv => hv) _ _ h

theorem agrees_nonempty {s grid : Grid} (h : Agrees s grid) : ∀ e ∈ grid, e.2 ≠ [] := by
  intro e he h0
  have := h e he
  rw [h0] at this
  simp at this

/-! ### Elimination as one pass -/

theorem eraseValue_idem (value : Nat) (cands : Candidates) :
    eraseValue value (eraseValue value cands) = eraseValue value cands := by
  simp [eraseValue, List.filter_filter]

theorem Grid.modify_eq_map {grid : Grid} (hn : grid.keys.Nodup) (cell : Cell)
    (f : Candidates → Candidates) :
    grid.modify cell f = grid.map (fun e => if e.1 = cell then (e.1, f e.2) else e) := by
  induction grid with
  | nil => rfl
  | cons e rest ih =>
    obtain ⟨k, v⟩ := e
    simp only [Grid.keys, List.map_cons, List.nodup_cons] at hn
    simp only [Grid.modify, List.map_cons]
    by_cases hk : k = cell
    · simp only [hk, if_true]
      congr 1
      symm
      conv_rhs => rw [← List.map_id rest]
      apply List.map_congr_left
      intro a ha
      have hne : a.1 ≠ cell := by
        intro h
        apply hn.1
        rw [hk, ← h]
        exact List.mem_map.2 ⟨a, ha, rfl⟩
      simp [hne]
    · simp only [hk, if_false]
      congr 1
      exact ih hn.2

theorem eraseVisits_true_eq (value : Nat) :
    ∀ (visits : List Cell) (grid : Grid), grid.keys.Nodup → (∀ c ∈ visits, c ∈ grid.keys) →
      (∀ e ∈ grid, e.1 ∈ visits → eraseValue value e.2 ≠ []) →
      eraseVisits value grid visits =
        .ok (true, grid.map fun e => if e.1 ∈ visits then (e.1, eraseValue value e.2) else e) := by
  intro visits
  induction visits with
  | nil =>
    intro grid _ _ _
    simp [eraseVisits]
  | cons cell rest ih =>
    intro grid hn hk hne
    obtain ⟨cands, hc⟩ := Grid.at_of_mem_keys (hk cell (List.mem_cons_self _ _))
    have he : ¬ (eraseValue value cands).isEmpty = true := by
      rw [List.isEmpty_iff]
      exact hne _ (Grid.at_mem hc) (List.mem_cons_self _ _)
    have hn1 : (grid.modify cell (eraseValue value)).keys.Nodup := by
      rw [Grid.keys_modify]; exact hn
    rw [eraseVisits, hc]
    simp only [he]
    rw [if_neg (by simp), ih _ hn1]
    · rw [Grid.modify_eq_map hn, List.map_map]
      congr 2
      apply List.map_congr_left
      intro a _
      by_cases h1 : a.1 = cell
      · by_cases h2 : cell ∈ rest <;> simp [h1, h2, eraseValue_idem]
      · simp [h1]
    · intro c hcr
      rw [Grid.keys_modify]
      exact hk c (List.mem_cons_of_mem _ hcr)
    · intro e hmem her
      rw [Grid.modify_eq_map hn] at hmem
      obtain ⟨a, ha, hae⟩ := List.mem_map.1 hmem
      by_cases h1 : a.1 = cell
      · simp only [h1, if_true] at hae
        rw [← hae]
        simp only [eraseValue_idem]
        exact hne a ha (by rw [h1]; exact List.mem_cons_self _ _)
      · simp only [h1, if_false] at hae
        rw [← hae] at her ⊢
        exact hne a ha (List.mem_cons_of_mem _ her)

theorem eraseVisits_false_of_empty (value : Nat) :
    ∀ (visits : List Cell) (grid : Grid), grid.keys.Nodup → (∀ c ∈ visits, c ∈ grid.keys) →
      (∃ e ∈ grid, e.1 ∈ visits ∧ eraseValue value e.2 = []) →
      ∃ after, eraseVisits value grid visits = .ok (false, after) := by
  intro visits
  induction visits with
  | nil =>
    intro grid _ _ h
    obtain ⟨e, _, h2, _⟩ := h
    exact absurd h2 (List.not_mem_nil _)
  | cons cell rest ih =>
    intro grid hn hk hbad
    obtain ⟨cands, hc⟩ := Grid.at_of_mem_keys (hk cell (List.mem_cons_self _ _))
    simp only [eraseVisits, hc]
    by_cases he : (eraseValue value cands).isEmpty = true
    · simp only [he, if_true]
      exact ⟨_, rfl⟩
    · simp only [he]
      have hn1 : (grid.modify cell (eraseValue value)).keys.Nodup := by
        rw [Grid.keys_modify]; exact hn
      apply ih _ hn1
      · intro c hcr
        rw [Grid.keys_modify]
        exact hk c (List.mem_cons_of_mem _ hcr)
      · obtain ⟨e, hmem, hv, hempty⟩ := hbad
        have hne : e.1 ≠ cell := by
          intro h
          apply he
          have : e = (cell, cands) := by
            have h1 := Grid.at_of_mem hn (show (e.1, e.2) ∈ grid from hmem)
            rw [h, hc] at h1
            simp only [Option.some.injEq] at h1
            exact Prod.ext h h1.symm
          rw [this] at hempty
          simp only at hempty
          rw [hempty]
          rfl
        refine ⟨e, ?_, ?_, hempty⟩
        · rw [Grid.modify_eq_map hn]
          exact List.mem_map.2 ⟨e, hmem, by simp [hne]⟩
        · rcases List.mem_cons.1 hv with h | h
          · exact absurd h hne
          · exact h

theorem nat_beq_eq_decide (a b : Nat) : Nat.beq a b = decide (a = b) := by
  by_cases h : a = b
  · simp [h, Nat.beq_refl]
  · have hb : Nat.beq a b ≠ true := fun hb => h (Nat.eq_of_beq_eq_true hb)
    simp [h, hb]

theorem isPeer_iff (c p : Cell) :
    isPeer c p = true ↔ p ≠ c ∧ (p.row_ = c.row_ ∨ p.col_ = c.col_ ∨
      (p.row_ / 3 = c.row_ / 3 ∧ p.col_ / 3 = c.col_ / 3)) := by
  obtain ⟨r, k⟩ := c
  obtain ⟨a, b⟩ := p
  simp only [isPeer, nat_beq_eq_decide, Bool.and_eq_true, Bool.or_eq_true, Bool.not_eq_true',
    decide_eq_true_eq, ne_eq, Cell.mk.injEq, Bool.and_eq_false_iff, decide_eq_false_iff_not]
  tauto

theorem mem_visits_iff_isPeer {c p : Cell} (hc : c ∈ allCells) (hp : p ∈ allCells) :
    p ∈ boxVisits c ++ lineVisits c ↔ isPeer c p = true := by
  have hc9 := (mem_allCells_iff c).1 hc
  have hp9 := (mem_allCells_iff p).1 hp
  rw [isPeer_iff]
  constructor
  · intro h
    rcases List.mem_append.1 h with hb | hl
    · obtain ⟨hne, h1, h2⟩ := mem_boxVisits hb
      exact ⟨hne, Or.inr (Or.inr ⟨h1, h2⟩)⟩
    · obtain ⟨hne, h1 | h1⟩ := mem_lineVisits hl
      · exact ⟨hne, Or.inr (Or.inl h1.1)⟩
      · exact ⟨hne, Or.inl h1.1⟩
  · rintro ⟨hne, h⟩
    obtain ⟨r, k⟩ := c
    obtain ⟨a, b⟩ := p
    simp only at hc9 hp9 h
    simp only [ne_eq, Cell.mk.injEq] at hne
    rcases h with h | h | h
    · apply List.mem_append_right
      simp only [lineVisits, List.mem_flatMap, List.mem_range, List.mem_append]
      refine ⟨b, hp9.2, Or.inr ?_⟩
      have hb : b ≠ k := fun hb => hne ⟨h, hb⟩
      simp [hb, h]
    · apply List.mem_append_right
      simp only [lineVisits, List.mem_flatMap, List.mem_range, List.mem_append]
      refine ⟨a, hp9.1, Or.inl ?_⟩
      have ha : a ≠ r := fun ha => hne ⟨ha, h⟩
      simp [ha, h]
    · apply List.mem_append_left
      simp only [boxVisits, List.mem_flatMap, List.mem_range]
      refine ⟨a % 3, Nat.mod_lt _ (by decide), b % 3, Nat.mod_lt _ (by decide), ?_⟩
      have h1 : r / 3 * 3 + a % 3 = a := by omega
      have h2 : k / 3 * 3 + b % 3 = b := by omega
      rw [h1, h2]
      have : ¬ (a = r ∧ b = k) := hne
      simp [this]

theorem branch_spec {grid : Grid} (hc : grid.Complete) {cell : Cell} {cands : Candidates}
    (hat : grid.at cell = some cands) (value : Nat) :
    (branch grid cell value = none →
      ∃ after, removeCandidate (grid.assign cell value) cell value = .ok (false, after)) ∧
    (∀ next, branch grid cell value = some next →
      removeCandidate (grid.assign cell value) cell value = .ok (true, next)) := by
  have hcell : cell ∈ allCells := hc.mem_keys_iff.1 (Grid.mem_keys_of_at hat)
  have hkeys : (grid.assign cell value).keys = grid.keys := by
    rw [Grid.assign_eq_modify value hat, Grid.keys_modify]
  have hn : (grid.assign cell value).keys.Nodup := by
    rw [hkeys]; exact hc.keys_nodup
  have hall : ∀ e ∈ grid.assign cell value, e.1 ∈ allCells := by
    intro e he
    apply hc.mem_keys_iff.1
    rw [← hkeys]
    exact List.mem_map.2 ⟨e, he, rfl⟩
  have hvis := visits_mem_keys hc hat value
  unfold branch
  cases hany : (grid.assign cell value).any
      (fun e => isPeer cell e.1 && (eraseValue value e.2).isEmpty) with
  | true =>
    refine ⟨fun _ => ?_, fun next h => by simp at h⟩
    simp only [List.any_eq_true, Bool.and_eq_true, List.isEmpty_iff] at hany
    obtain ⟨e, he, hp, hemp⟩ := hany
    exact eraseVisits_false_of_empty value _ _ hn hvis
      ⟨e, he, (mem_visits_iff_isPeer hcell (hall e he)).2 hp, hemp⟩
  | false =>
    refine ⟨fun h => by simp at h, fun next h => ?_⟩
    simp only [Option.some.injEq] at h
    subst h
    have hno : ∀ e ∈ grid.assign cell value,
        e.1 ∈ boxVisits cell ++ lineVisits cell → eraseValue value e.2 ≠ [] := by
      intro e he hv hemp
      have h1 : (grid.assign cell value).any
          (fun e => isPeer cell e.1 && (eraseValue value e.2).isEmpty) = true := by
        simp only [List.any_eq_true, Bool.and_eq_true, List.isEmpty_iff]
        exact ⟨e, he, (mem_visits_iff_isPeer hcell (hall e he)).1 hv, hemp⟩
      rw [hany] at h1
      exact absurd h1 (by simp)
    unfold removeCandidate
    rw [eraseVisits_true_eq value _ _ hn hvis hno]
    congr 2
    apply List.map_congr_left
    intro e he
    unfold eliminate
    by_cases hp : isPeer cell e.1 = true
    · simp [hp, (mem_visits_iff_isPeer hcell (hall e he)).2 hp]
    · have hnv : e.1 ∉ boxVisits cell ++ lineVisits cell :=
        fun h => hp ((mem_visits_iff_isPeer hcell (hall e he)).1 h)
      simp only [Bool.not_eq_true] at hp
      simp [hp, hnv]

theorem tryValues_eq_pass (r1 r2 : Grid → Grid → Except Fault (Bool × Grid))
    (h12 : ∀ st g, g.Complete → r1 st g = r2 st g)
    {grid : Grid} (hc : grid.Complete) {cell : Cell} {cands : Candidates}
    (hat : grid.at cell = some cands) :
    ∀ (vs : List Nat), (∀ v ∈ vs, v ∈ cands) → ∀ st,
      tryValues r1 grid cell st vs = tryValuesPass r2 grid cell st vs := by
  intro vs
  induction vs with
  | nil => intro _ st; rfl
  | cons v rest ih =>
    intro hvs st
    have hrest : ∀ w ∈ rest, w ∈ cands := fun w hw => hvs w (List.mem_cons_of_mem _ hw)
    obtain ⟨hnone, hsome⟩ := branch_spec hc hat v
    cases hb : branch grid cell v with
    | none =>
      obtain ⟨after, hr⟩ := hnone hb
      simp only [tryValues, tryValuesPass, hr, hb]
      exact ih hrest st
    | some next =>
      have hr := hsome next hb
      have hcn : next.Complete :=
        (branch_refines hat (hvs v (List.mem_cons_self _ _)) hr).complete hc
      simp only [tryValues, tryValuesPass, hr, hb, h12 st next hcn]
      cases r2 st next with
      | error e => rfl
      | ok res =>
        obtain ⟨b, st1⟩ := res
        cases b with
        | true => rfl
        | false => exact ih hrest st1

theorem tryFrom_eq_tryFromPass :
    ∀ (n : Nat) (st grid : Grid), grid.Complete → tryFrom n st grid = tryFromPass n st grid := by
  intro n
  induction n with
  | zero => intro st grid _; rfl
  | succ n ih =>
    intro st grid hc
    rw [tryFrom, tryFromPass]
    cases getNextCell grid with
    | none => rfl
    | some cell =>
      simp only
      cases hat : grid.at cell with
      | none => rfl
      | some cands =>
        simp only
        exact tryValues_eq_pass (tryFrom n) (tryFromPass n) ih hc hat cands (fun v hv => hv) st

theorem solve_eq_of_pass {fuel : Nat} {grid : Grid} (hc : grid.Complete)
    {res : Bool × Grid} (h : tryFromPass fuel grid grid = .ok res) (m : Nat) (hm : fuel ≤ m) :
    solve m grid = .ok res := by
  apply tryFrom_mono_le hm
  rw [tryFrom_eq_tryFromPass fuel grid grid hc]
  exact h

/-! ### Forced digits -/

theorem valueAt_cases (grid : Grid) (cell : Cell) :
    valueAt grid cell = 0 ∨ grid.at cell = some [valueAt grid cell] := by
  unfold valueAt
  split
  · rename_i d hd
    right
    exact hd
  · left
    rfl

theorem agrees_nakedSingle {s grid : Grid} (hv : isValidSolution s = true) (ha : Agrees s grid)
    {cell : Cell} (hc : cell ∈ allCells) : Agrees s (nakedSingle grid cell) := by
  have hx : valueAt s cell ∈ freeDigits grid cell := by
    have hdig := isValidSolution_digit hv cell hc
    simp only [freeDigits, List.mem_filter, List.all_eq_true, bne_iff_ne, ne_eq]
    refine ⟨hdig, ?_⟩
    intro p hp hpe
    rcases valueAt_cases grid p with h0 | hat
    · rw [h0] at hpe
      rw [← hpe] at hdig
      exact absurd hdig (by decide)
    · have hm := ha _ (Grid.at_mem hat)
      simp only [List.mem_singleton] at hm
      exact isValidSolution_peers hv cell hc p hp (hm.trans hpe)
  unfold nakedSingle
  split
  · rename_i d hd
    rw [hd] at hx
    simp only [List.mem_singleton] at hx
    unfold Agrees
    apply Grid.forall_modify ha
    intro _ _
    simp [hx]
  · exact ha

theorem agrees_propagate {s : Grid} (hv : isValidSolution s = true) :
    ∀ (cells : List Cell) (grid : Grid), (∀ c ∈ cells, c ∈ allCells) → Agrees s grid →
      Agrees s (propagate grid cells) := by
  intro cells
  induction cells with
  | nil => intro grid _ ha; exact ha
  | cons c rest ih =>
    intro grid hc ha
    simp only [propagate, List.foldl_cons]
    exact ih _ (fun x hx => hc x (List.mem_cons_of_mem _ hx))
      (agrees_nakedSingle hv ha (hc c (List.mem_cons_self _ _)))

theorem values_eq_of_agrees {s grid : Grid} (hc : grid.Complete)
    (hone : ∀ e ∈ grid, e.2.length = 1) (ha : Agrees s grid) : values s = values grid := by
  unfold values
  apply List.map_congr_left
  intro c hcell
  obtain ⟨cands, hat⟩ := Grid.at_of_mem_keys (hc.mem_keys_iff.2 hcell)
  obtain ⟨d, hd⟩ := List.length_eq_one.1 (hone _ (Grid.at_mem hat))
  subst hd
  have hm := ha _ (Grid.at_mem hat)
  simp only [List.mem_singleton] at hm
  rw [hm]
  simp [valueAt, hat]

theorem unique_of_propagate {tokens solution : List Nat} (order : List Cell)
    (ho : ∀ c ∈ order, c ∈ allCells)
    (hp : propagate (puzzle tokens) order = puzzle solution)
    (hone : ∀ e ∈ puzzle solution, e.2.length = 1)
    (hval : values (puzzle solution) = solution)
    (s : Grid) (hv : isValidSolution s = true) (ha : Agrees s (puzzle tokens)) :
    values s = solution := by
  have h1 := agrees_propagate hv order (puzzle tokens) ho ha
  rw [hp] at h1
  rw [values_eq_of_agrees (puzzle_complete solution) hone h1, hval]

theorem uniqueTokens_unique (s : Grid) (hv : isValidSolution s = true)
    (ha : Agrees s (puzzle uniqueTokens)) : values s = uniqueSolution :=
  unique_of_propagate uniqueOrder (by decide!) (by decide!) (by decide!) (by decide!) s hv ha

theorem twoBoxesTokens_unique (s : Grid) (hv : isValidSolution s = true)
    (ha : Agrees s (puzzle twoBoxesTokens)) : values s = twoBoxesSolution :=
  unique_of_propagate twoBoxesOrder (by decide!) (by decide!) (by decide!) (by decide!) s hv ha

/-! ### The listing order of a grid with unique keys does not matter to its cells -/

theorem Grid.at_perm {a b : Grid} (h : a.Perm b) (hn : b.keys.Nodup) (cell : Cell) :
    a.at cell = b.at cell := by
  have hk : a.keys.Perm b.keys := h.map Prod.fst
  cases hb : b.at cell with
  | none =>
    apply Grid.at_eq_none_iff.2
    intro hmem
    exact Grid.at_eq_none_iff.1 hb (hk.mem_iff.1 hmem)
  | some v =>
    exact Grid.at_of_mem (hk.nodup_iff.2 hn) (h.mem_iff.2 (Grid.at_mem hb))

theorem isValidSolution_perm {a b : Grid} (h : a.Perm b) (hn : b.keys.Nodup) :
    isValidSolution a = isValidSolution b := by
  have hd : isDetermined a = isDetermined b := by
    funext cell
    simp only [isDetermined, Grid.at_perm h hn cell]
  have hv : valueAt a = valueAt b := by
    funext cell
    simp only [valueAt, Grid.at_perm h hn cell]
  simp only [isValidSolution, hd, hv]

theorem solve_mono_le {n m : Nat} (hnm : n ≤ m) (grid : Grid) (res : Bool × Grid)
    (h : solve n grid = .ok res) : solve m grid = .ok res :=
  tryFrom_mono_le hnm grid grid res h

/-! ### The cell `getNextCell` chooses -/

theorem foldl_scanStep_keep :
    ∀ (l : List (Cell × Candidates)) (st : Scan),
      (∀ e ∈ l, ¬ (1 < e.2.length ∧ e.2.length < st.minSize)) →
      (l.foldl scanStep st).minCell = st.minCell ∧ (l.foldl scanStep st).minSize = st.minSize := by
  intro l
  induction l with
  | nil => intro st _; exact ⟨rfl, rfl⟩
  | cons e rest ih =>
    intro st h
    have he : ¬ (e.2.length > 1 ∧ e.2.length < st.minSize) := h e (List.mem_cons_self _ _)
    have h1 : (scanStep st e).minCell = st.minCell := by rw [scanStep_minCell, if_neg he]
    have h2 : (scanStep st e).minSize = st.minSize := by rw [scanStep_minSize, if_neg he]
    simp only [List.foldl_cons]
    have := ih (scanStep st e) (by
      intro a ha
      rw [h2]
      exact h a (List.mem_cons_of_mem _ ha))
    rw [this.1, this.2, h1, h2]
    exact ⟨rfl, rfl⟩

theorem foldl_scanStep_first_min :
    ∀ (l : List (Cell × Candidates)) (st : Scan),
      (∃ e ∈ l, 1 < e.2.length ∧ e.2.length < st.minSize) →
      ∃ pre cell cands post, l = pre ++ (cell, cands) :: post ∧
        (l.foldl scanStep st).minCell = cell ∧ (l.foldl scanStep st).minSize = cands.length ∧
        1 < cands.length ∧ cands.length < st.minSize ∧
        (∀ e ∈ pre, 1 < e.2.length → cands.length < e.2.length) ∧
        (∀ e ∈ post, 1 < e.2.length → cands.length ≤ e.2.length) := by
  intro l
  induction l with
  | nil =>
    intro st h
    obtain ⟨e, he, _⟩ := h
    exact absurd he (List.not_mem_nil _)
  | cons e rest ih =>
    intro st h
    simp only [List.foldl_cons]
    by_cases he : e.2.length > 1 ∧ e.2.length < st.minSize
    · have h1 : (scanStep st e).minCell = e.1 := by rw [scanStep_minCell, if_pos he]
      have h2 : (scanStep st e).minSize = e.2.length := by rw [scanStep_minSize, if_pos he]
      by_cases hr : ∃ a ∈ rest, 1 < a.2.length ∧ a.2.length < (scanStep st e).minSize
      · obtain ⟨pre, cell, cands, post, hsplit, hc, hs, hlen, hlt, hpre, hpost⟩ :=
          ih (scanStep st e) hr
        refine ⟨e :: pre, cell, cands, post, by rw [hsplit]; rfl, hc, hs, hlen, ?_, ?_, hpost⟩
        · rw [h2] at hlt
          omega
        · intro a ha hal
          rcases List.mem_cons.1 ha with h3 | h3
          · rw [h3]
            rw [h2] at hlt
            exact hlt
          · exact hpre a h3 hal
      · have hkeep := foldl_scanStep_keep rest (scanStep st e) (by
          intro a ha hh
          exact hr ⟨a, ha, hh⟩)
        refine ⟨[], e.1, e.2, rest, rfl, ?_, ?_, he.1, he.2, ?_, ?_⟩
        · rw [hkeep.1, h1]
        · rw [hkeep.2, h2]
        · intro a ha
          exact absurd ha (List.not_mem_nil _)
        · intro a ha hal
          by_contra hcon
          apply hr
          refine ⟨a, ha, hal, ?_⟩
          rw [h2]
          omega
    · have h1 : (scanStep st e).minCell = st.minCell := by rw [scanStep_minCell, if_neg he]
      have h2 : (scanStep st e).minSize = st.minSize := by rw [scanStep_minSize, if_neg he]
      have hr : ∃ a ∈ rest, 1 < a.2.length ∧ a.2.length < (scanStep st e).minSize := by
        obtain ⟨a, ha, hh⟩ := h
        rcases List.mem_cons.1 ha with h3 | h3
        · rw [h3] at hh
          exact absurd hh he
        · exact ⟨a, h3, by rw [h2]; exact hh⟩
      obtain ⟨pre, cell, cands, post, hsplit, hc, hs, hlen, hlt, hpre, hpost⟩ :=
        ih (scanStep st e) hr
      rw [h2] at hlt
      refine ⟨e :: pre, cell, cands, post, by rw [hsplit]; rfl, hc, hs, hlen, hlt, ?_, hpost⟩
      intro a ha hal
      rcases List.mem_cons.1 ha with h3 | h3
      · rw [h3]
        by_contra hcon
        apply he
        rw [h3] at hal
        exact ⟨hal, by omega⟩
      · exact hpre a h3 hal

theorem getNextCell_first_min (grid : Grid) (hb : ∀ e ∈ grid, e.2.length < sizeMax)
    (h : ∃ e ∈ grid, 1 < e.2.length) :
    ∃ pre cell cands post, grid = pre ++ (cell, cands) :: post ∧
      getNextCell grid = some cell ∧ 1 < cands.length ∧
      (∀ e ∈ pre, 1 < e.2.length → cands.length < e.2.length) ∧
      (∀ e ∈ post, 1 < e.2.length → cands.length ≤ e.2.length) := by
  obtain ⟨e, he, hlen⟩ := h
  obtain ⟨pre, cell, cands, post, hsplit, hc, _, hl, _, hpre, hpost⟩ :=
    foldl_scanStep_first_min grid { minCell := Cell.mk 0 0, minSize := sizeMax, solved := true }
      ⟨e, he, hlen, hb e he⟩
  refine ⟨pre, cell, cands, post, hsplit, ?_, hl, hpre, hpost⟩
  have hns : getNextCell grid ≠ none := by
    intro hn
    have := (getNextCell_eq_none_iff grid).1 hn e he
    omega
  unfold getNextCell at hns ⊢
  simp only [] at hns ⊢
  by_cases hsol : (grid.foldl scanStep
      { minCell := Cell.mk 0 0, minSize := sizeMax, solved := true }).solved = true
  · rw [if_pos hsol] at hns
    exact absurd rfl hns
  · rw [if_neg hsol, hc]

/-! ### What `removeCandidate` does to each cell -/

theorem eraseVisits_at (value : Nat) :
    ∀ (visits : List Cell) (grid after : Grid) (b : Bool),
      eraseVisits value grid visits = .ok (b, after) →
      ∀ p, (p ∉ visits → after.at p = grid.at p) ∧
        (after.at p = grid.at p ∨ after.at p = (grid.at p).map (eraseValue value)) := by
  intro visits
  induction visits with
  | nil =>
    intro grid after b h p
    simp only [eraseVisits, Except.ok.injEq, Prod.mk.injEq] at h
    rw [← h.2]
    exact ⟨fun _ => rfl, Or.inl rfl⟩
  | cons cell rest ih =>
    intro grid after b h p
    simp only [eraseVisits] at h
    split at h
    · exact absurd h (by simp)
    · rename_i cands hc
      have hself : (grid.modify cell (eraseValue value)).at cell =
          some (eraseValue value cands) := Grid.at_modify_self _ hc
      split at h
      · simp only [Except.ok.injEq, Prod.mk.injEq] at h
        rw [← h.2]
        by_cases hp : p = cell
        · subst hp
          refine ⟨fun hn => absurd (List.mem_cons_self _ _) hn, Or.inr ?_⟩
          rw [hself, hc]
          rfl
        · rw [Grid.at_modify_of_ne _ hp]
          exact ⟨fun _ => rfl, Or.inl rfl⟩
      · obtain ⟨h1, h2⟩ := ih _ _ _ h p
        by_cases hp : p = cell
        · subst hp
          refine ⟨fun hn => absurd (List.mem_cons_self _ _) hn, Or.inr ?_⟩
          rw [hself] at h2
          rw [hc]
          rcases h2 with h2 | h2
          · rw [h2]; rfl
          · rw [h2]
            simp only [Option.map_some', eraseValue_idem]
        · rw [Grid.at_modify_of_ne _ hp] at h1 h2
          exact ⟨fun hn => h1 (fun hr => hn (List.mem_cons_of_mem _ hr)), h2⟩

theorem visits_subset_keys {grid : Grid} (hc : grid.Complete) {coordinate : Cell}
    (hcell : coordinate ∈ allCells) :
    ∀ p ∈ boxVisits coordinate ++ lineVisits coordinate, p ∈ grid.keys :=
  fun p hp => hc.mem_keys_iff.2 (visits_peers coordinate hcell p hp).1

theorem Grid.Complete.mem_allCells {grid : Grid} (hc : grid.Complete) {e : Cell × Candidates}
    (he : e ∈ grid) : e.1 ∈ allCells :=
  hc.mem_keys_iff.1 (List.mem_map.2 ⟨e, he, rfl⟩)

theorem removeCandidate_true_eq {grid : Grid} (hc : grid.Complete) {coordinate : Cell}
    (hcell : coordinate ∈ allCells) (value : Nat)
    (hno : ∀ e ∈ grid, isPeer coordinate e.1 = true → eraseValue value e.2 ≠ []) :
    removeCandidate grid coordinate value =
      .ok (true, grid.map (eliminate coordinate value)) := by
  unfold removeCandidate
  rw [eraseVisits_true_eq value _ _ hc.keys_nodup (visits_subset_keys hc hcell)
    (fun e he hv => hno e he ((mem_visits_iff_isPeer hcell (hc.mem_allCells he)).1 hv))]
  congr 2
  apply List.map_congr_left
  intro e he
  unfold eliminate
  by_cases hp : isPeer coordinate e.1 = true
  · simp [hp, (mem_visits_iff_isPeer hcell (hc.mem_allCells he)).2 hp]
  · have hnv : e.1 ∉ boxVisits coordinate ++ lineVisits coordinate :=
      fun h => hp ((mem_visits_iff_isPeer hcell (hc.mem_allCells he)).1 h)
    simp only [Bool.not_eq_true] at hp
    simp [hp, hnv]

theorem removeCandidate_false_of_empty {grid : Grid} (hc : grid.Complete) {coordinate : Cell}
    (hcell : coordinate ∈ allCells) (value : Nat)
    (hbad : ∃ e ∈ grid, isPeer coordinate e.1 = true ∧ eraseValue value e.2 = []) :
    ∃ after, removeCandidate grid coordinate value = .ok (false, after) := by
  obtain ⟨e, he, hp, hemp⟩ := hbad
  exact eraseVisits_false_of_empty value _ _ hc.keys_nodup (visits_subset_keys hc hcell)
    ⟨e, he, (mem_visits_iff_isPeer hcell (hc.mem_allCells he)).2 hp, hemp⟩

theorem eraseValue_ne_nil_iff (value : Nat) (cands : Candidates) :
    eraseValue value cands ≠ [] ↔ ∃ d ∈ cands, d ≠ value := by
  constructor
  · intro h
    obtain ⟨d, hd⟩ := List.exists_mem_of_ne_nil _ h
    exact ⟨d, (mem_eraseValue.1 hd).1, (mem_eraseValue.1 hd).2⟩
  · rintro ⟨d, hd, hne⟩ h
    have := mem_eraseValue.2 ⟨hd, hne⟩
    rw [h] at this
    exact absurd this (List.not_mem_nil _)

theorem Grid.at_map_eliminate (grid : Grid) (coordinate : Cell) (value : Nat) (p : Cell) :
    Grid.at (grid.map (eliminate coordinate value)) p =
      (Grid.at grid p).map (fun x => if isPeer coordinate p = true then eraseValue value x else x) := by
  induction grid with
  | nil => rfl
  | cons e rest ih =>
    obtain ⟨k, v⟩ := e
    have hk : (eliminate coordinate value (k, v)).1 = k := by
      unfold eliminate
      cases isPeer coordinate k <;> rfl
    have hv : (eliminate coordinate value (k, v)).2 =
        if isPeer coordinate k = true then eraseValue value v else v := by
      unfold eliminate
      cases isPeer coordinate k <;> rfl
    rw [List.map_cons]
    rw [show eliminate coordinate value (k, v) =
      ((eliminate coordinate value (k, v)).1, (eliminate coordinate value (k, v)).2) from rfl]
    simp only [Grid.at, hk, hv]
    by_cases hkp : k = p
    · subst hkp
      simp
    · simp only [hkp, if_false]
      exact ih

/-! ### The grids the search recurses on -/

theorem recurses_spec {grid next : Grid} (hs : Searchable grid) (h : Recurses grid next) :
    Searchable next ∧ next.total < grid.total := by
  obtain ⟨cell, cands, value, hgn, hat, hv, hr⟩ := h
  obtain ⟨cands2, hat2, hlen⟩ := getNextCell_some_spec hs.1 hs.2 hgn
  rw [hat] at hat2
  simp only [Option.some.injEq] at hat2
  subst hat2
  obtain ⟨b, next2, hrc, _, hb⟩ := branch_ok hs hat hv
  rw [hr] at hrc
  simp only [Except.ok.injEq, Prod.mk.injEq] at hrc
  obtain ⟨hb1, hn⟩ := hrc
  subst hn
  obtain ⟨h1, h2⟩ := hb hb1.symm
  exact ⟨h1, by omega⟩

theorem reachable_searchable {start grid : Grid} (hs : Searchable start)
    (h : Relation.ReflTransGen Recurses start grid) : Searchable grid := by
  induction h with
  | refl => exact hs
  | tail _ hstep ih => exact (recurses_spec ih hstep).1

theorem tryValues_congr (r1 r2 : Grid → Grid → Except Fault (Bool × Grid))
    {grid : Grid} {cell : Cell} {cands : Candidates}
    (hgn : getNextCell grid = some cell) (hat : grid.at cell = some cands)
    (h12 : ∀ st next, Recurses grid next → r1 st next = r2 st next) :
    ∀ (vs : List Nat), (∀ v ∈ vs, v ∈ cands) → ∀ st,
      tryValues r1 grid cell st vs = tryValues r2 grid cell st vs := by
  intro vs
  induction vs with
  | nil => intro _ st; rfl
  | cons v rest ih =>
    intro hvs st
    have hrest : ∀ w ∈ rest, w ∈ cands := fun w hw => hvs w (List.mem_cons_of_mem _ hw)
    cases hr : removeCandidate (grid.assign cell v) cell v with
    | error e => simp only [tryValues, hr]
    | ok res =>
      obtain ⟨b, next⟩ := res
      cases b with
      | false =>
        simp only [tryValues, hr]
        exact ih hrest st
      | true =>
        have hrec : Recurses grid next :=
          ⟨cell, cands, v, hgn, hat, hvs v (List.mem_cons_self _ _), hr⟩
        simp only [tryValues, hr, h12 st next hrec]
        cases r2 st next with
        | error e => rfl
        | ok res2 =>
          obtain ⟨b2, st1⟩ := res2
          cases b2 with
          | true => rfl
          | false => exact ih hrest st1

theorem tryFrom_calls_recurses (n : Nat) (st grid : Grid)
    (r : Grid → Grid → Except Fault (Bool × Grid))
    (h : ∀ st1 next, Recurses grid next → r st1 next = tryFrom n st1 next) :
    tryFrom (n + 1) st grid =
      match getNextCell grid with
      | none => .ok (true, grid)
      | some cell =>
        match grid.at cell with
        | none => .error .outOfRange
        | some cands => tryValues r grid cell st cands := by
  rw [tryFrom]
  cases hgn : getNextCell grid with
  | none => rfl
  | some cell =>
    simp only
    cases hat : grid.at cell with
    | none => rfl
    | some cands =>
      simp only
      exact (tryValues_congr r (tryFrom n) hgn hat h cands (fun v hv => hv) st).symm

/-! ### Concrete runs -/

theorem twoBoxesTokens_run :
    tryFromPass 82 (puzzle twoBoxesTokens) (puzzle twoBoxesTokens) =
      .ok (true, puzzle twoBoxesWrong) := by decide!

theorem uniqueTokens_run :
    tryFromPass 82 (puzzle uniqueTokens) (puzzle uniqueTokens) =
      .ok (true, puzzle uniqueSolution) := by decide!

theorem uniqueTokens_rowMajor_run :
    tryFromPass 82 (puzzleRowMajor uniqueTokens) (puzzleRowMajor uniqueTokens) =
      .ok (true, puzzleRowMajor uniqueWrong) := by decide!

theorem duplicateBlankRowTokens_run :
    tryFromPass 82 (puzzle duplicateBlankRowTokens) (puzzle duplicateBlankRowTokens) =
      .ok (true, puzzle duplicateTokens) := by decide!

theorem emptyTokens_run :
    tryFromPass 82 (puzzle emptyTokens) (puzzle emptyTokens) =
      .ok (true, puzzle emptyWrong) := by decide!

theorem twoBoxesSource_tokens : twoBoxesSource.map tokenOf = twoBoxesTokens := by decide

/-! ### The claims -/

/-- C1 (fails on the code): the grid that `read` builds from the source `twoBoxesSource` of 81
tokens, 63 of them givens, has exactly one valid completion, `twoBoxesSolution`; `solve` returns
`true` on it and leaves the digits `twoBoxesWrong`, which are not that completion and not a valid
Sudoku (column 3 holds 1 twice). -/
theorem solve_misses_unique_completion :
    read (some twoBoxesSource) = .ok (puzzle twoBoxesTokens) ∧
    isValidSolution (puzzle twoBoxesSolution) = true ∧
    Agrees (puzzle twoBoxesSolution) (puzzle twoBoxesTokens) ∧
    (∀ s, isValidSolution s = true → Agrees s (puzzle twoBoxesTokens) →
      values s = twoBoxesSolution) ∧
    (∀ fuel, 82 ≤ fuel →
      solve fuel (puzzle twoBoxesTokens) = .ok (true, puzzle twoBoxesWrong)) ∧
    values (puzzle twoBoxesWrong) ≠ twoBoxesSolution ∧
    isValidSolution (puzzle twoBoxesWrong) = false := by
  refine ⟨?_, by decide!, by decide!, twoBoxesTokens_unique, ?_, by decide!, by decide!⟩
  · rw [read_eq_puzzle twoBoxesSource (by decide), twoBoxesSource_tokens]
  · intro fuel hf
    exact solve_eq_of_pass (puzzle_complete _) twoBoxesTokens_run fuel hf

/-- C2 (fails on the code): on the fully given grid of `duplicateTokens`, whose row 0 holds 5
twice, `solve` returns `true`, in whatever order the container lists the 81 entries, and the
resulting grid, which is the grid itself, is not a valid Sudoku. -/
theorem solve_true_with_invalid_grid (grid : Grid) (h : grid.Perm (puzzle duplicateTokens))
    (fuel : Nat) :
    solve (fuel + 1) grid = .ok (true, grid) ∧ isValidSolution grid = false := by
  have hone : ∀ e ∈ grid, e.2.length = 1 := by
    intro e he
    have hall : ∀ e ∈ puzzle duplicateTokens, e.2.length = 1 := by decide!
    exact hall e (h.mem_iff.1 he)
  have hn : getNextCell grid = none := (getNextCell_eq_none_iff grid).2 hone
  refine ⟨by simp [solve, tryFrom, hn], ?_⟩
  rw [isValidSolution_perm h (puzzle_complete _).keys_nodup]
  decide!

/-- C2, at a concrete input: the grid of `duplicateTokens` listed row by row. -/
theorem solve_true_with_invalid_grid_witness :
    solve 1 (puzzleRowMajor duplicateTokens) = .ok (true, puzzleRowMajor duplicateTokens) ∧
      isValidSolution (puzzleRowMajor duplicateTokens) = false :=
  solve_true_with_invalid_grid (puzzleRowMajor duplicateTokens) (by decide!) 0

/-- C3: on a grid with all 81 cells present, when some valid Sudoku completion has at each cell a
digit among the candidates of that cell, `solve` returns `true` (with fuel above the number of
candidates in the grid), and with no amount of fuel does it return `false`. -/
theorem solve_succeeds_of_completion (grid s : Grid) (hc : grid.Complete)
    (hv : isValidSolution s = true) (ha : Agrees s grid) :
    (∃ result, solve (grid.total + 1) grid = .ok (true, result)) ∧
      ∀ fuel after, solve fuel grid ≠ .ok (false, after) := by
  obtain ⟨b, st1, hrun, htrue⟩ := tryFrom_spec (grid.total + 1) grid grid
    ⟨hc, agrees_nonempty ha⟩ (Nat.lt_succ_self _)
  have hb : b = true := htrue ⟨s, hv, ha⟩
  subst hb
  refine ⟨⟨st1, hrun⟩, ?_⟩
  intro fuel after hf
  have h1 := tryFrom_mono_le (Nat.le_max_left fuel (grid.total + 1)) _ _ _ hf
  have h2 := tryFrom_mono_le (Nat.le_max_right fuel (grid.total + 1)) _ _ _ hrun
  rw [h1] at h2
  simp at h2

/-- C3, at a concrete input: the valid Sudoku `solvedTokens` with two cells blanked. -/
theorem solve_succeeds_of_completion_witness :
    (∃ result, solve ((puzzle twoBlanksTokens).total + 1) (puzzle twoBlanksTokens) =
        .ok (true, result)) ∧
      ∀ fuel after, solve fuel (puzzle twoBlanksTokens) ≠ .ok (false, after) :=
  solve_succeeds_of_completion (puzzle twoBlanksTokens) (puzzle solvedTokens)
    (puzzle_complete _) (by decide!) (by decide!)

/-- C4 (fails on the code): row 0 of `duplicateTokens` has the given 5 at columns 0 and 1, and
`solve` returns `true`, both when every other cell is a given and when row 8 is left blank. -/
theorem solve_true_on_duplicate_given :
    (puzzle duplicateTokens).at ⟨0, 0⟩ = some [5] ∧
    (puzzle duplicateTokens).at ⟨0, 1⟩ = some [5] ∧
    (∀ fuel, solve (fuel + 1) (puzzle duplicateTokens) = .ok (true, puzzle duplicateTokens)) ∧
    (∀ fuel, 82 ≤ fuel →
      solve fuel (puzzle duplicateBlankRowTokens) = .ok (true, puzzle duplicateTokens)) := by
  refine ⟨by decide!, by decide!, ?_, ?_⟩
  · intro fuel
    have hn : getNextCell (puzzle duplicateTokens) = none :=
      (getNextCell_eq_none_iff _).2 (by decide!)
    simp [solve, tryFrom, hn]
  · intro fuel hf
    exact solve_eq_of_pass (puzzle_complete _) duplicateBlankRowTokens_run fuel hf

/-- C5 (fails on the code): the puzzle `uniqueTokens` has exactly one valid completion,
`uniqueSolution`; listed in the order of `read`, `solve` returns that completion, and the same
candidate sets listed row by row with ascending candidates make `solve` return the digits
`uniqueWrong`: two scan orders, two different grids. -/
theorem solve_depends_on_iteration_order :
    (Grid.keys (puzzleRowMajor uniqueTokens)).Perm (Grid.keys (puzzle uniqueTokens)) ∧
    sameCandidates (puzzle uniqueTokens) (puzzleRowMajor uniqueTokens) = true ∧
    isValidSolution (puzzle uniqueSolution) = true ∧
    Agrees (puzzle uniqueSolution) (puzzle uniqueTokens) ∧
    (∀ s, isValidSolution s = true → Agrees s (puzzle uniqueTokens) →
      values s = uniqueSolution) ∧
    solve 82 (puzzle uniqueTokens) = .ok (true, puzzle uniqueSolution) ∧
    solve 82 (puzzleRowMajor uniqueTokens) = .ok (true, puzzleRowMajor uniqueWrong) ∧
    values (puzzle uniqueSolution) ≠ values (puzzleRowMajor uniqueWrong) := by
  refine ⟨?_, by decide!, by decide!, by decide!, uniqueTokens_unique,
    solve_eq_of_pass (puzzle_complete _) uniqueTokens_run 82 (Nat.le_refl _),
    solve_eq_of_pass (puzzleRowMajor_complete _) uniqueTokens_rowMajor_run 82 (Nat.le_refl _),
    by decide!⟩
  exact (puzzleRowMajor_complete _).keys_perm.trans (puzzle_complete _).keys_perm.symm

/-- C6 (fails on the code): on the empty puzzle, in the order of `read`, `solve` returns `true` and
leaves the digits `emptyWrong`, which are not a valid Sudoku (row 6 holds 1 twice). -/
theorem solve_empty_puzzle_invalid :
    (∀ fuel, 82 ≤ fuel → solve fuel (puzzle emptyTokens) = .ok (true, puzzle emptyWrong)) ∧
    isValidSolution (puzzle emptyWrong) = false := by
  refine ⟨?_, by decide!⟩
  intro fuel hf
  exact solve_eq_of_pass (puzzle_complete _) emptyTokens_run fuel hf

/-- C7: on a grid whose cells all have exactly one candidate, `solve` returns `true` at once (no
recursive call is made: any positive fuel will do) and `grid_` is the grid it was. -/
theorem solve_solved_grid (grid : Grid) (fuel : Nat)
    (h : ∀ e ∈ grid, e.2.length = 1) :
    solve (fuel + 1) grid = .ok (true, grid) := by
  have hn : getNextCell grid = none := (getNextCell_eq_none_iff grid).2 h
  simp [solve, tryFrom, hn]

/-- C7, at a concrete input: the 81 givens of `solvedTokens`. -/
theorem solve_solved_grid_witness :
    solve 1 (puzzle solvedTokens) = .ok (true, puzzle solvedTokens) :=
  solve_solved_grid (puzzle solvedTokens) 0 (by decide!)

/-- C8: when `solve` returns `true`, the resulting grid has the keys of the input, each of its
cells has exactly one candidate, that digit is a candidate of the same cell in the input, and
every cell that held a single digit in the input still holds it. -/
theorem solve_result_within_candidates (fuel : Nat) (grid result : Grid)
    (h : solve fuel grid = .ok (true, result)) :
    result.keys = grid.keys ∧
    (∀ cell cands, result.at cell = some cands →
      ∃ d old, cands = [d] ∧ grid.at cell = some old ∧ d ∈ old) ∧
    (∀ cell d, grid.at cell = some [d] → result.at cell = some [d]) := by
  obtain ⟨href, hone⟩ := tryFrom_true_result fuel grid grid result h
  have hsingle : ∀ cell cands, result.at cell = some cands → ∃ d, cands = [d] := by
    intro cell cands hat
    exact List.length_eq_one.1 (hone _ (Grid.at_mem hat))
  refine ⟨href.keys_eq, ?_, ?_⟩
  · intro cell cands hat
    obtain ⟨old, hold, hsub⟩ := href.at_fine hat
    obtain ⟨d, hd⟩ := hsingle cell cands hat
    subst hd
    exact ⟨d, old, rfl, hold, List.singleton_sublist.1 hsub⟩
  · intro cell d hat
    obtain ⟨x, hx, hsub⟩ := href.at_coarse hat
    obtain ⟨d2, hd2⟩ := hsingle cell x hx
    subst hd2
    have : d2 = d := by simpa using List.singleton_sublist.1 hsub
    rw [hx, this]

/-- C8, at a concrete input: `solvedTokens` with two cells blanked is solved back to it. -/
theorem solve_result_within_candidates_witness :
    (puzzle solvedTokens).keys = (puzzle twoBlanksTokens).keys ∧
    (∀ cell cands, (puzzle solvedTokens).at cell = some cands →
      ∃ d old, cands = [d] ∧ (puzzle twoBlanksTokens).at cell = some old ∧ d ∈ old) ∧
    (∀ cell d, (puzzle twoBlanksTokens).at cell = some [d] →
      (puzzle solvedTokens).at cell = some [d]) :=
  solve_result_within_candidates 3 (puzzle twoBlanksTokens) (puzzle solvedTokens) (by decide!)

/-- C9: when `solve` returns `false`, the member `grid_` after the call is the grid it was before
the call. -/
theorem solve_false_keeps_grid (fuel : Nat) (grid after : Grid)
    (h : solve fuel grid = .ok (false, after)) : after = grid :=
  tryFrom_false_state fuel grid grid after h

/-- C9, at a concrete input: the grid of `deadEndTokens`, on which `solve` returns `false`. -/
theorem solve_false_keeps_grid_witness :
    solve 1 (puzzle deadEndTokens) = .ok (false, puzzle deadEndTokens) ∧
      puzzle deadEndTokens = puzzle deadEndTokens :=
  ⟨by decide!, solve_false_keeps_grid 1 (puzzle deadEndTokens) (puzzle deadEndTokens) (by decide!)⟩

/-- C10: `getNextCell` returns `std::nullopt` exactly when every cell of the grid has exactly one
candidate. -/
theorem getNextCell_nullopt_iff_all_determined (grid : Grid) :
    getNextCell grid = none ↔ ∀ e ∈ grid, e.2.length = 1 :=
  getNextCell_eq_none_iff grid

/-- C11: on a complete grid with an undetermined cell, `getNextCell` returns a cell of the grid that
has more than one candidate and no more candidates than any other cell with more than one
(Minimum Remaining Values). -/
theorem getNextCell_minimum_remaining_values (grid : Grid) (hc : grid.Complete)
    (h : ∃ e ∈ grid, 1 < e.2.length) :
    ∃ cell cands, getNextCell grid = some cell ∧ grid.at cell = some cands ∧
      1 < cands.length ∧ ∀ e ∈ grid, 1 < e.2.length → cands.length ≤ e.2.length := by
  obtain ⟨pre, cell, cands, post, hsplit, hget, hlen, hpre, hpost⟩ :=
    getNextCell_first_min grid (fun e he => (hc.sets e he).2) h
  have hmem : (cell, cands) ∈ grid := by
    rw [hsplit]
    exact List.mem_append_right _ (List.mem_cons_self _ _)
  refine ⟨cell, cands, hget, Grid.at_of_mem hc.keys_nodup hmem, hlen, ?_⟩
  intro e he hel
  rw [hsplit] at he
  rcases List.mem_append.1 he with h1 | h1
  · exact Nat.le_of_lt (hpre e h1 hel)
  · rcases List.mem_cons.1 h1 with h2 | h2
    · rw [h2]
    · exact hpost e h2 hel

/-- C11, at a concrete input: the grid of `twoBlanksTokens`. -/
theorem getNextCell_minimum_remaining_values_witness :
    ∃ cell cands, getNextCell (puzzle twoBlanksTokens) = some cell ∧
      (puzzle twoBlanksTokens).at cell = some cands ∧ 1 < cands.length ∧
      ∀ e ∈ puzzle twoBlanksTokens, 1 < e.2.length → cands.length ≤ e.2.length :=
  getNextCell_minimum_remaining_values (puzzle twoBlanksTokens) (puzzle_complete _)
    (by decide!)

/-- C12: on a complete grid, for a coordinate of the grid and any value, `removeCandidate` returns,
and it returns `true` exactly when every peer of the coordinate holds, before the call, a digit
other than the value (so that it keeps a candidate once the value is removed). -/
theorem removeCandidate_true_iff (grid : Grid) (hc : grid.Complete) (coordinate : Cell)
    (hcell : coordinate ∈ allCells) (value : Nat) :
    ∃ b after, removeCandidate grid coordinate value = .ok (b, after) ∧
      (b = true ↔ ∀ e ∈ grid, isPeer coordinate e.1 = true → ∃ d ∈ e.2, d ≠ value) := by
  by_cases hno : ∀ e ∈ grid, isPeer coordinate e.1 = true → eraseValue value e.2 ≠ []
  · refine ⟨true, _, removeCandidate_true_eq hc hcell value hno, ?_⟩
    simp only [true_iff]
    intro e he hp
    exact (eraseValue_ne_nil_iff value e.2).1 (hno e he hp)
  · have hbad : ∃ e ∈ grid, isPeer coordinate e.1 = true ∧ eraseValue value e.2 = [] := by
      by_contra hcon
      apply hno
      intro e he hp hemp
      exact hcon ⟨e, he, hp, hemp⟩
    obtain ⟨after, hr⟩ := removeCandidate_false_of_empty hc hcell value hbad
    refine ⟨false, after, hr, ?_⟩
    simp only [Bool.false_eq_true, false_iff]
    intro hall
    obtain ⟨e, he, hp, hemp⟩ := hbad
    exact (eraseValue_ne_nil_iff value e.2).2 (hall e he hp) hemp

/-- C12, at a concrete input: the grid of `twoBlanksTokens`, the cell at row 0, column 0 and the
value 5. -/
theorem removeCandidate_true_iff_witness :
    ∃ b after, removeCandidate (puzzle twoBlanksTokens) ⟨0, 0⟩ 5 = .ok (b, after) ∧
      (b = true ↔ ∀ e ∈ puzzle twoBlanksTokens, isPeer ⟨0, 0⟩ e.1 = true → ∃ d ∈ e.2, d ≠ 5) :=
  removeCandidate_true_iff (puzzle twoBlanksTokens) (puzzle_complete _) ⟨0, 0⟩
    (by decide!) 5

/-- C13: on a complete grid, when `removeCandidate` returns `true` for a coordinate of the grid,
the candidate set of every peer of the coordinate is its previous set with the value removed, and
does not contain the value. -/
theorem removeCandidate_true_peers (grid : Grid) (hc : grid.Complete) (coordinate : Cell)
    (hcell : coordinate ∈ allCells) (value : Nat) (after : Grid)
    (h : removeCandidate grid coordinate value = .ok (true, after)) :
    ∀ p ∈ allCells, isPeer coordinate p = true →
      ∃ old, grid.at p = some old ∧ after.at p = some (eraseValue value old) ∧
        value ∉ eraseValue value old := by
  have hno : ∀ e ∈ grid, isPeer coordinate e.1 = true → eraseValue value e.2 ≠ [] := by
    intro e he hp hemp
    obtain ⟨a2, hr⟩ := removeCandidate_false_of_empty hc hcell value ⟨e, he, hp, hemp⟩
    rw [h] at hr
    simp at hr
  have heq := removeCandidate_true_eq hc hcell value hno
  rw [h] at heq
  simp only [Except.ok.injEq, Prod.mk.injEq, true_and] at heq
  intro p hp hpeer
  obtain ⟨old, hold⟩ := Grid.at_of_mem_keys (hc.mem_keys_iff.2 hp)
  refine ⟨old, hold, ?_, ?_⟩
  · rw [heq, Grid.at_map_eliminate, hold]
    simp [hpeer]
  · intro hmem
    exact (mem_eraseValue.1 hmem).2 rfl

/-- C13, at a concrete input: removing 5 around row 0, column 0 of the grid of `twoBlanksTokens`,
seen at the peer at row 0, column 1. -/
theorem removeCandidate_true_peers_witness :
    ∃ old, (puzzle twoBlanksTokens).at ⟨0, 1⟩ = some old ∧
      Grid.at ((puzzle twoBlanksTokens).map (eliminate ⟨0, 0⟩ 5)) ⟨0, 1⟩ =
        some (eraseValue 5 old) ∧
      5 ∉ eraseValue 5 old :=
  removeCandidate_true_peers (puzzle twoBlanksTokens) (puzzle_complete _) ⟨0, 0⟩
    (by decide!) 5 ((puzzle twoBlanksTokens).map (eliminate ⟨0, 0⟩ 5)) (by decide!)
    ⟨0, 1⟩ (by decide!) (by decide!)

/-- C14: for a source of 81 tokens, `read` builds a grid whose keys are the 81 coordinates, each
once (listed in the order `hashOrder`), where the cell at `(k / 9, k % 9)` is the singleton of `d`
when token `k` is the character of a digit `d` in 1..9, and the full set 1..9 when token `k` is any
other character, such as the blank placeholder. -/
theorem read_builds_grid (tokens : List Char) (hlen : tokens.length = 81) :
    ∃ grid, read (some tokens) = .ok grid ∧ grid.keys = hashOrder ∧ grid.keys.Perm allCells ∧
      ∀ k value, k < 81 → tokens[k]? = some value →
        (∀ d ∈ digits, value = Char.ofNat (48 + d) →
          grid.at (Cell.mk (k / 9) (k % 9)) = some [d]) ∧
        ((∀ d ∈ digits, value ≠ Char.ofNat (48 + d)) →
          grid.at (Cell.mk (k / 9) (k % 9)) = some digits) :=
  read_spec tokens (Nat.le_of_eq hlen.symm)

/-- C14, at a concrete input: the source of the puzzle `twoBlanksTokens`. -/
theorem read_builds_grid_witness :
    ∃ grid, read (some twoBlanksSource) = .ok grid ∧ grid.keys = hashOrder ∧
      grid.keys.Perm allCells ∧
      ∀ k value, k < 81 → twoBlanksSource[k]? = some value →
        (∀ d ∈ digits, value = Char.ofNat (48 + d) →
          grid.at (Cell.mk (k / 9) (k % 9)) = some [d]) ∧
        ((∀ d ∈ digits, value ≠ Char.ofNat (48 + d)) →
          grid.at (Cell.mk (k / 9) (k % 9)) = some digits) :=
  read_builds_grid twoBlanksSource (by decide)

/-- C15 (fails on the code): a source of 81 tokens that starts with the letter X is not refused;
`read` builds the grid of the empty puzzle from it. -/
theorem read_accepts_letter :
    sourceWithX.length = 81 ∧ read (some sourceWithX) = .ok (puzzle emptyTokens) := by
  decide!

/-- C15, as amended: `read` fails when the file could not be opened, and for every source that
delivers 81 tokens it builds a grid, in which a token that is not the character of a digit 1..9
(the placeholder or any other character) leaves the full set 1..9 at its cell. -/
theorem read_fails_only_unopened :
    read none = .error .couldNotOpen ∧
    ∀ tokens : List Char, 81 ≤ tokens.length →
      ∃ grid, read (some tokens) = .ok grid ∧
        ∀ k value, k < 81 → tokens[k]? = some value →
          (∀ d ∈ digits, value ≠ Char.ofNat (48 + d)) →
          grid.at (Cell.mk (k / 9) (k % 9)) = some digits := by
  refine ⟨rfl, ?_⟩
  intro tokens hlen
  obtain ⟨grid, hr, _, _, hat⟩ := read_spec tokens hlen
  exact ⟨grid, hr, fun k value hk hv hno => (hat k value hk hv).2 hno⟩

/-- C15 as amended, at a concrete input: the source that starts with the letter X. -/
theorem read_fails_only_unopened_witness :
    ∃ grid, read (some sourceWithX) = .ok grid ∧
      ∀ k value, k < 81 → sourceWithX[k]? = some value →
        (∀ d ∈ digits, value ≠ Char.ofNat (48 + d)) →
        grid.at (Cell.mk (k / 9) (k % 9)) = some digits :=
  read_fails_only_unopened.2 sourceWithX (by decide)

/-- C16: when the grid given to `solve` is complete and has no empty candidate set, so is every
grid on which the search recurses, and so is the grid committed on success. -/
theorem search_keeps_grids_searchable (grid : Grid) (hs : Searchable grid) :
    (∀ g, Relation.ReflTransGen Recurses grid g → Searchable g) ∧
    (∀ fuel result, solve fuel grid = .ok (true, result) → Searchable result) := by
  refine ⟨fun g hg => reachable_searchable hs hg, ?_⟩
  intro fuel result h
  obtain ⟨href, hone⟩ := tryFrom_true_result fuel grid grid result h
  refine ⟨href.complete hs.1, ?_⟩
  intro e he h0
  have := hone e he
  rw [h0] at this
  simp at this

/-- C16, at a concrete input: the grid of `twoBlanksTokens`. -/
theorem search_keeps_grids_searchable_witness :
    (∀ g, Relation.ReflTransGen Recurses (puzzle twoBlanksTokens) g → Searchable g) ∧
    (∀ fuel result, solve fuel (puzzle twoBlanksTokens) = .ok (true, result) →
      Searchable result) :=
  search_keeps_grids_searchable (puzzle twoBlanksTokens)
    ⟨puzzle_complete _, by decide!⟩

/-- C17: on a complete grid, for a coordinate of the grid and any value, `removeCandidate` returns
and, whether it returns `true` or `false`, the cell at the coordinate and every cell that is not
a peer keep their candidate sets, and the set of a peer is afterwards its previous set or its
previous set with the value removed. -/
theorem removeCandidate_frame (grid : Grid) (hc : grid.Complete) (coordinate : Cell)
    (hcell : coordinate ∈ allCells) (value : Nat) :
    ∃ b after, removeCandidate grid coordinate value = .ok (b, after) ∧
      after.at coordinate = grid.at coordinate ∧
      ∀ p, (isPeer coordinate p = false → after.at p = grid.at p) ∧
        (isPeer coordinate p = true →
          after.at p = grid.at p ∨ after.at p = (grid.at p).map (eraseValue value)) := by
  obtain ⟨b, after, hr⟩ := eraseVisits_ok value (boxVisits coordinate ++ lineVisits coordinate)
    grid (visits_subset_keys hc hcell)
  have hat := eraseVisits_at value _ _ _ _ hr
  refine ⟨b, after, hr, ?_, ?_⟩
  · apply (hat coordinate).1
    intro hmem
    exact (visits_peers coordinate hcell coordinate hmem).2.1 rfl
  · intro p
    refine ⟨fun hp => ?_, fun _ => (hat p).2⟩
    apply (hat p).1
    intro hmem
    have hp2 := (mem_visits_iff_isPeer hcell (visits_peers coordinate hcell p hmem).1).1 hmem
    rw [hp] at hp2
    exact absurd hp2 (by simp)

/-- C17, at a concrete input: the grid of `twoBlanksTokens`, the cell at row 0, column 0 and the
value 3. -/
theorem removeCandidate_frame_witness :
    ∃ b after, removeCandidate (puzzle twoBlanksTokens) ⟨0, 0⟩ 3 = .ok (b, after) ∧
      after.at ⟨0, 0⟩ = (puzzle twoBlanksTokens).at ⟨0, 0⟩ ∧
      ∀ p, (isPeer ⟨0, 0⟩ p = false → after.at p = (puzzle twoBlanksTokens).at p) ∧
        (isPeer ⟨0, 0⟩ p = true →
          after.at p = (puzzle twoBlanksTokens).at p ∨
            after.at p = ((puzzle twoBlanksTokens).at p).map (eraseValue 3)) :=
  removeCandidate_frame (puzzle twoBlanksTokens) (puzzle_complete _) ⟨0, 0⟩
    (by decide!) 3

/-- C18: on a complete grid without empty candidate set, every recursive call of `tryFrom` is made
on a grid with strictly fewer candidates in total, and `tryFrom` returns once the fuel exceeds
the number of candidates in the grid. -/
theorem tryFrom_terminates (grid : Grid) (hs : Searchable grid) :
    (∀ next, Recurses grid next → next.total < grid.total) ∧
    ∀ fuel st, grid.total < fuel → ∃ b st1, tryFrom fuel st grid = .ok (b, st1) := by
  refine ⟨fun next h => (recurses_spec hs h).2, ?_⟩
  intro fuel st hf
  obtain ⟨b, st1, hrun, _⟩ := tryFrom_spec fuel st grid hs hf
  exact ⟨b, st1, hrun⟩

/-- C18, at a concrete input: the grid of `twoBlanksTokens`. -/
theorem tryFrom_terminates_witness :
    (∀ next, Recurses (puzzle twoBlanksTokens) next →
      next.total < (puzzle twoBlanksTokens).total) ∧
    ∀ fuel st, (puzzle twoBlanksTokens).total < fuel →
      ∃ b st1, tryFrom fuel st (puzzle twoBlanksTokens) = .ok (b, st1) :=
  tryFrom_terminates (puzzle twoBlanksTokens) ⟨puzzle_complete _, by decide!⟩

/-- C19 (fails on the code): the grid `emptiedCellGrid` is complete: it has an entry for each of
the 81 coordinates, one of them empty and the others singletons; `getNextCell` returns the cell at
row 0, column 0, whose candidate set has one element. -/
theorem getNextCell_returns_determined_cell :
    emptiedCellGrid.Complete ∧
    getNextCell emptiedCellGrid = some ⟨0, 0⟩ ∧
    emptiedCellGrid.at ⟨0, 0⟩ = some [5] := by
  refine ⟨⟨?_, by decide!⟩, by decide!, by decide!⟩
  unfold emptiedCellGrid
  rw [Grid.keys_modify]
  exact (puzzle_complete _).keys_perm

/-- C19, as amended: on a complete grid without empty candidate set, a cell that `getNextCell`
returns has more than one candidate. -/
theorem getNextCell_returns_undetermined (grid : Grid) (hc : grid.Complete)
    (hne : ∀ e ∈ grid, e.2 ≠ []) (cell : Cell) (h : getNextCell grid = some cell) :
    ∃ cands, grid.at cell = some cands ∧ 1 < cands.length :=
  getNextCell_some_spec hc hne h

/-- C19 as amended, at a concrete input: the grid of `twoBlanksTokens`. -/
theorem getNextCell_returns_undetermined_witness :
    ∃ cands, (puzzle twoBlanksTokens).at ⟨0, 0⟩ = some cands ∧ 1 < cands.length :=
  getNextCell_returns_undetermined (puzzle twoBlanksTokens) (puzzle_complete _)
    (by decide!) ⟨0, 0⟩ (by decide!)

/-- C20: in a grid with an undetermined cell, `getNextCell` returns the key of an entry with more
than one candidate such that every undetermined entry scanned before it has strictly more
candidates and every undetermined entry scanned after it has at least as many: among the
entries with the smallest count, the first in scan order. -/
theorem getNextCell_first_among_smallest (grid : Grid)
    (hb : ∀ e ∈ grid, e.2.length < sizeMax) (h : ∃ e ∈ grid, 1 < e.2.length) :
    ∃ pre cell cands post, grid = pre ++ (cell, cands) :: post ∧
      getNextCell grid = some cell ∧ 1 < cands.length ∧
      (∀ e ∈ pre, 1 < e.2.length → cands.length < e.2.length) ∧
      (∀ e ∈ post, 1 < e.2.length → cands.length ≤ e.2.length) :=
  getNextCell_first_min grid hb h

/-- C20, at a concrete input: the grid of `twoBlanksTokens`, whose two blank cells tie. -/
theorem getNextCell_first_among_smallest_witness :
    ∃ pre cell cands post, puzzle twoBlanksTokens = pre ++ (cell, cands) :: post ∧
      getNextCell (puzzle twoBlanksTokens) = some cell ∧ 1 < cands.length ∧
      (∀ e ∈ pre, 1 < e.2.length → cands.length < e.2.length) ∧
      (∀ e ∈ post, 1 < e.2.length → cands.length ≤ e.2.length) :=
  getNextCell_first_among_smallest (puzzle twoBlanksTokens) (by decide!) (by decide!)

end SudokuSolver
